import Mathlib

/-!
A verification development for the Definition Resolution & Project Traversal
Engine of the LaTeX-Ast-Gen repository.  The TypeScript sources are embedded
shallowly: JavaScript string-keyed records become association lists whose
update operation mirrors `Object.assign` / object-spread semantics, the
definition store (`DefinitionHandler`) becomes a structure of such records,
the per-file pipeline (`FileContentParser.parseFileContent`) becomes a pure
function over explicit `Except`-valued collaborator primitives, and the
project traversal loop (`ProjectProcessor.parse`) becomes a step function on
an explicit queue/visited state.
-/

namespace LatexAstGen

/-! ## JavaScript-style records

A JS object with string keys is modelled as an association list in key
insertion order.  `recSet` mirrors `obj[k] = v` (update in place if the key
exists, append otherwise); `recAssign` mirrors `Object.assign(target, src)` /
spread `{...target, ...src}`; `recLookup` mirrors property access. -/

abbrev JsRec (α : Type) := List (String × α)

def recLookup {α : Type} (r : JsRec α) (k : String) : Option α :=
  (r.find? (fun p => p.1 == k)).map (fun p => p.2)

def recHas {α : Type} (r : JsRec α) (k : String) : Bool :=
  (recLookup r k).isSome

def recSet {α : Type} (r : JsRec α) (k : String) (v : α) : JsRec α :=
  if r.any (fun p => p.1 == k) then
    r.map (fun p => if p.1 = k then (k, v) else p)
  else
    r ++ [(k, v)]

def recAssign {α : Type} (r : JsRec α) (src : JsRec α) : JsRec α :=
  src.foldl (fun acc p => recSet acc p.1 p.2) r

def recKeysNodup {α : Type} (r : JsRec α) : Prop :=
  (r.map (fun p => p.1)).Nodup

/-- Lookup of the *last* binding of a key, used to describe the effect of
`Object.assign` when the source list may bind a key twice. -/
def recLookupLast {α : Type} (r : JsRec α) (k : String) : Option α :=
  recLookup r.reverse k

/-- `oalt a b` is `a` if it is `some`, otherwise `b` (strict `Option.orElse`). -/
def oalt {α : Type} : Option α → Option α → Option α
  | some v, _ => some v
  | none, b => b

theorem oalt_assoc {α : Type} (a b c : Option α) :
    oalt (oalt a b) c = oalt a (oalt b c) := by
  cases a <;> cases b <;> simp [oalt]

theorem oalt_none_left {α : Type} (b : Option α) : oalt none b = b := rfl

theorem oalt_some_left {α : Type} (v : α) (b : Option α) :
    oalt (some v) b = some v := rfl

theorem recLookup_nil {α : Type} (k : String) : recLookup ([] : JsRec α) k = none := rfl

theorem recLookup_append {α : Type} (r s : JsRec α) (k : String) :
    recLookup (r ++ s) k = oalt (recLookup r k) (recLookup s k) := by
  induction r with
  | nil => simp [recLookup, oalt]
  | cons p rest ih =>
    by_cases h : p.1 = k
    · simp [recLookup, List.find?, h, oalt]
    · have h' : (p.1 == k) = false := by simpa using h
      simp only [recLookup, List.cons_append, List.find?, h'] at *
      exact ih

theorem recLookup_cons {α : Type} (p : String × α) (r : JsRec α) (k : String) :
    recLookup (p :: r) k = if p.1 = k then some p.2 else recLookup r k := by
  by_cases h : p.1 = k
  · simp [recLookup, List.find?, h]
  · have h' : (p.1 == k) = false := by simpa using h
    simp [recLookup, List.find?, h', h]

theorem recLookup_map_replace {α : Type} (r : JsRec α) (k : String) (v : α) (k' : String) :
    recLookup (r.map (fun p => if p.1 = k then (k, v) else p)) k' =
      if k' = k then (if r.any (fun p => p.1 == k) then some v else none)
      else recLookup r k' := by
  induction r with
  | nil => by_cases h : k' = k <;> simp [recLookup, h]
  | cons p rest ih =>
    by_cases hpk : p.1 = k
    · by_cases hk' : k' = k
      · subst hk'
        simp [List.map_cons, recLookup_cons, hpk, List.any_cons]
      · have hne : ¬ p.1 = k' := by rw [hpk]; exact fun h => hk' h.symm
        have hkk' : ¬ k = k' := fun h => hk' h.symm
        simp [List.map_cons, recLookup_cons, hpk, hk', hne, hkk', ih, List.any_cons]
    · by_cases hpk' : p.1 = k'
      · have hk' : ¬ k' = k := by
          intro h; exact hpk (by rw [hpk', h])
        simp [List.map_cons, recLookup_cons, hpk, hpk', hk']
      · have hb : (p.1 == k) = false := by simpa using hpk
        rw [List.map_cons, recLookup_cons, if_neg hpk, recLookup_cons, if_neg hpk', ih,
          List.any_cons, hb, if_neg hpk', Bool.false_or]

theorem recLookup_recSet {α : Type} (r : JsRec α) (k : String) (v : α) (k' : String) :
    recLookup (recSet r k v) k' = if k' = k then some v else recLookup r k' := by
  unfold recSet
  by_cases hmem : r.any (fun p => p.1 == k)
  · rw [if_pos hmem, recLookup_map_replace, hmem]
    simp
  · rw [if_neg hmem, recLookup_append]
    by_cases hk' : k' = k
    · subst hk'
      have hnone : recLookup r k' = none := by
        unfold recLookup
        rw [List.find?_eq_none.mpr]
        · rfl
        · intro p hp hc
          exact hmem (List.any_eq_true.mpr ⟨p, hp, hc⟩)
      rw [hnone]
      simp [oalt, recLookup, List.find?]
    · have hkk' : ¬ ((k : String) = k') := fun h => hk' h.symm
      have hkb : ((k : String) == k') = false := by simpa using hkk'
      have hsingle : recLookup [(k, v)] k' = none := by
        simp [recLookup, List.find?, hkb]
      rw [hsingle]
      cases h : recLookup r k' <;> simp [oalt, hk']

theorem oalt_none_right {α : Type} (a : Option α) : oalt a none = a := by
  cases a <;> rfl

theorem recLookup_eq_none_of_not_mem {α : Type} (r : JsRec α) (k : String)
    (h : k ∉ r.map (fun p => p.1)) : recLookup r k = none := by
  unfold recLookup
  rw [List.find?_eq_none.mpr]
  · rfl
  · intro p hp hc
    exact h (List.mem_map.mpr ⟨p, hp, by simpa using hc⟩)

theorem recLookupLast_cons {α : Type} (p : String × α) (r : JsRec α) (k : String) :
    recLookupLast (p :: r) k =
      oalt (recLookupLast r k) (if p.1 = k then some p.2 else none) := by
  unfold recLookupLast
  rw [List.reverse_cons, recLookup_append]
  congr 1
  rw [recLookup_cons]
  by_cases h : p.1 = k <;> simp [h, recLookup]

/-- `Object.assign(target, src)` looks up as: last binding in `src`, else `target`. -/
theorem recLookup_recAssign {α : Type} (r src : JsRec α) (k : String) :
    recLookup (recAssign r src) k = oalt (recLookupLast src k) (recLookup r k) := by
  induction src generalizing r with
  | nil => simp [recAssign, recLookupLast, recLookup, oalt]
  | cons p rest ih =>
    show recLookup (recAssign (recSet r p.1 p.2) rest) k = _
    rw [ih, recLookupLast_cons, oalt_assoc]
    congr 1
    rw [recLookup_recSet]
    by_cases h : k = p.1
    · simp [h, oalt]
    · have h' : ¬ p.1 = k := fun hc => h hc.symm
      simp [h, h', oalt]

theorem recKeys_recSet {α : Type} (r : JsRec α) (k : String) (v : α) :
    (recSet r k v).map (fun p => p.1) =
      if r.any (fun p => p.1 == k) then r.map (fun p => p.1)
      else r.map (fun p => p.1) ++ [k] := by
  unfold recSet
  by_cases hmem : r.any (fun p => p.1 == k)
  · rw [if_pos hmem, if_pos hmem, List.map_map]
    apply List.map_congr_left
    intro p _
    by_cases h : p.1 = k <;> simp [h]
  · rw [if_neg hmem, if_neg hmem]
    simp

theorem recKeysNodup_recSet {α : Type} (r : JsRec α) (k : String) (v : α)
    (h : recKeysNodup r) : recKeysNodup (recSet r k v) := by
  unfold recKeysNodup
  rw [recKeys_recSet]
  by_cases hmem : r.any (fun p => p.1 == k)
  · rwa [if_pos hmem]
  · rw [if_neg hmem]
    refine List.Nodup.append h (List.nodup_singleton k) ?_
    intro x hx hx'
    rcases List.mem_map.mp hx with ⟨p, hp, hpx⟩
    rcases List.mem_singleton.mp hx' with rfl
    exact hmem (List.any_eq_true.mpr ⟨p, hp, by simpa using hpx⟩)

theorem recKeysNodup_recAssign {α : Type} (r src : JsRec α)
    (h : recKeysNodup r) : recKeysNodup (recAssign r src) := by
  induction src generalizing r with
  | nil => exact h
  | cons p rest ih => exact ih _ (recKeysNodup_recSet _ _ _ h)

theorem recLookupLast_eq_recLookup {α : Type} (r : JsRec α) (k : String)
    (h : recKeysNodup r) : recLookupLast r k = recLookup r k := by
  induction r with
  | nil => rfl
  | cons p rest ih =>
    rw [recLookupLast_cons, recLookup_cons]
    have hrest : recKeysNodup rest := (List.nodup_cons.mp h).2
    by_cases hpk : p.1 = k
    · have hnot : k ∉ rest.map (fun p => p.1) := by
        rw [← hpk]; exact (List.nodup_cons.mp h).1
      rw [ih hrest, recLookup_eq_none_of_not_mem rest k hnot, if_pos hpk]
      rfl
    · rw [if_neg hpk, ih hrest, oalt_none_right, if_neg hpk]

theorem recHas_recSet {α : Type} (r : JsRec α) (k : String) (v : α) (k' : String) :
    recHas (recSet r k v) k' = (k' == k || recHas r k') := by
  unfold recHas
  rw [recLookup_recSet]
  by_cases h : k' = k <;> simp [h]

theorem recHas_recAssign_of_recHas {α : Type} (r src : JsRec α) (k : String)
    (h : recHas r k) : recHas (recAssign r src) k := by
  unfold recHas at *
  rw [recLookup_recAssign]
  cases hl : recLookupLast src k
  · simpa [oalt] using h
  · simp [oalt]

theorem recHas_append_right {α : Type} (r s : JsRec α) (k : String)
    (h : recHas r k) : recHas (r ++ s) k := by
  unfold recHas at *
  rw [recLookup_append]
  cases hl : recLookup r k
  · rw [hl] at h; simp at h
  · simp [oalt, hl]

/-! ## The Definition Store (`DefinitionHandler`)

From `src/core/DefinitionHandler.ts`.  Four command categories and three
environment categories; merged views use object-spread with fixed priority. -/

structure MacroInfo where
  signature : String
deriving DecidableEq, Repr

structure EnvInfo where
  signature : String
deriving DecidableEq, Repr

structure DefinitionStore where
  defaultMacros : JsRec MacroInfo
  userProvidedMacros : JsRec MacroInfo
  definedInDocMacros : JsRec MacroInfo
  inferredUsedMacros : JsRec MacroInfo
  ctanEnvs : JsRec EnvInfo
  userProvidedEnvs : JsRec EnvInfo
  definedInDocEnvs : JsRec EnvInfo
deriving Repr

/-- `DefinitionHandler.loadDefaultMacroSignatures` (the refactored handler). -/
def loadDefaultMacroSignatures : JsRec MacroInfo :=
  [("documentclass", ⟨"o m"⟩), ("usepackage", ⟨"o m"⟩), ("input", ⟨"m"⟩),
   ("include", ⟨"m"⟩), ("subfile", ⟨"m"⟩), ("textbf", ⟨"m"⟩), ("textit", ⟨"m"⟩),
   ("texttt", ⟨"m"⟩), ("underline", ⟨"m"⟩), ("emph", ⟨"m"⟩), ("mathbb", ⟨"m"⟩),
   ("mathbf", ⟨"m"⟩), ("mathcal", ⟨"m"⟩), ("mathrm", ⟨"m"⟩), ("frac", ⟨"m m"⟩),
   ("sqrt", ⟨"o m"⟩), ("newcommand", ⟨"m o o m"⟩), ("renewcommand", ⟨"m o o m"⟩),
   ("DeclareMathOperator", ⟨"s m m"⟩), ("DeclarePairedDelimiter", ⟨"m m m"⟩),
   ("begin", ⟨"m o"⟩), ("end", ⟨"m"⟩), ("item", ⟨"o"⟩), ("label", ⟨"m"⟩),
   ("ref", ⟨"m"⟩), ("eqref", ⟨"m"⟩), ("cite", ⟨"o m"⟩), ("bibliography", ⟨"m"⟩),
   ("bibliographystyle", ⟨"m"⟩), ("includegraphics", ⟨"o o m"⟩),
   ("caption", ⟨"o m"⟩), ("newcounter", ⟨"m o"⟩), ("newenvironment", ⟨"m o o m m"⟩),
   ("renewenvironment", ⟨"m o o m m"⟩), ("provideenvironment", ⟨"m o o m m"⟩),
   ("newtheorem", ⟨"s m o m"⟩), ("newtcolorbox", ⟨"o m o o m"⟩),
   ("DeclareTColorBox", ⟨"m m m"⟩), ("newlist", ⟨"m m m"⟩)]

/-- The `DefinitionHandler` constructor: defaults (when enabled), user-provided
records from the resolved config, empty document/inferred categories. -/
def initStore (loadDefaults : Bool) (customMacroRecord : JsRec MacroInfo)
    (ctan customEnvironmentRecord : JsRec EnvInfo) : DefinitionStore :=
  { defaultMacros := if loadDefaults then loadDefaultMacroSignatures else []
    userProvidedMacros := customMacroRecord
    definedInDocMacros := []
    inferredUsedMacros := []
    ctanEnvs := ctan
    userProvidedEnvs := customEnvironmentRecord
    definedInDocEnvs := [] }

/-- `DefinitionHandler.mergeMacroRecords`: spread order
`inferred, default, userProvided, definedInDoc` (later spreads win). -/
def mergeMacroRecords (st : DefinitionStore) : JsRec MacroInfo :=
  recAssign (recAssign (recAssign st.inferredUsedMacros st.defaultMacros)
    st.userProvidedMacros) st.definedInDocMacros

/-- `DefinitionHandler.getEffectiveMacroInfoRecord`. -/
def getEffectiveMacroInfoRecord (st : DefinitionStore) : JsRec MacroInfo :=
  mergeMacroRecords st

/-- `DefinitionHandler.mergeEnvironmentRecords`: spread order
`ctan, userProvided, definedInDoc`. -/
def mergeEnvironmentRecords (st : DefinitionStore) : JsRec EnvInfo :=
  recAssign (recAssign st.ctanEnvs st.userProvidedEnvs) st.definedInDocEnvs

/-- `DefinitionHandler.addDocumentDefinedMacros`:
`Object.assign(this.definedInDocMacros, docMacros)`. -/
def addDocumentDefinedMacros (st : DefinitionStore) (docMacros : JsRec MacroInfo) :
    DefinitionStore :=
  { st with definedInDocMacros := recAssign st.definedInDocMacros docMacros }

/-- `DefinitionHandler.addDocumentDefinedEnvironments`. -/
def addDocumentDefinedEnvironments (st : DefinitionStore) (docEnvs : JsRec EnvInfo) :
    DefinitionStore :=
  { st with definedInDocEnvs := recAssign st.definedInDocEnvs docEnvs }

/-- `DefinitionHandler.addInferredUsedMacros`: each entry is added to the
inferred category only if its name is absent from all four categories at that
moment (the inferred category check sees entries added earlier in the same
call). -/
def addInferredUsedMacros (st : DefinitionStore) (inferredMacros : JsRec MacroInfo) :
    DefinitionStore :=
  { st with inferredUsedMacros :=
      inferredMacros.foldl (fun acc p =>
        if recHas st.defaultMacros p.1 || recHas st.userProvidedMacros p.1 ||
           recHas st.definedInDocMacros p.1 || recHas acc p.1 then acc
        else acc ++ [(p.1, p.2)]) st.inferredUsedMacros }

/-- The store's mutating public operations, for quantifying over arbitrary
insertion sequences.  The read operations (`getEffectiveMacroInfoRecord`,
`getEffectiveEnvInfoRecord`, `getAllDefinitionsCategorized`) return copies and
leave the store unchanged, so they are modelled as pure functions elsewhere. -/
inductive StoreOp where
  | addDocMacros (r : JsRec MacroInfo)
  | addDocEnvs (r : JsRec EnvInfo)
  | addInferred (r : JsRec MacroInfo)

def applyOp (st : DefinitionStore) : StoreOp → DefinitionStore
  | .addDocMacros r => addDocumentDefinedMacros st r
  | .addDocEnvs r => addDocumentDefinedEnvironments st r
  | .addInferred r => addInferredUsedMacros st r

def applyOps (st : DefinitionStore) : List StoreOp → DefinitionStore
  | [] => st
  | op :: rest => applyOps (applyOp st op) rest

theorem recHas_iff_mem {α : Type} (r : JsRec α) (k : String) :
    recHas r k = true ↔ k ∈ r.map (fun p => p.1) := by
  unfold recHas recLookup
  rw [Option.isSome_map']
  rw [List.find?_isSome]
  constructor
  · rintro ⟨p, hp, hc⟩
    exact List.mem_map.mpr ⟨p, hp, by simpa using hc⟩
  · rintro h
    rcases List.mem_map.mp h with ⟨p, hp, hpk⟩
    exact ⟨p, hp, by simpa using hpk⟩

theorem recKeysNodup_append_new {α : Type} (r : JsRec α) (k : String) (v : α)
    (h : recKeysNodup r) (hk : recHas r k = false) :
    recKeysNodup (r ++ [(k, v)]) := by
  unfold recKeysNodup
  rw [List.map_append]
  refine List.Nodup.append h (List.nodup_singleton k) ?_
  intro x hx hx'
  rcases List.mem_singleton.mp hx' with rfl
  have := (recHas_iff_mem r x).mpr hx
  rw [hk] at this
  exact Bool.false_ne_true this

/-- The per-entry update of `addInferredUsedMacros`. -/
def inferredStep (st : DefinitionStore) (acc : JsRec MacroInfo)
    (p : String × MacroInfo) : JsRec MacroInfo :=
  if recHas st.defaultMacros p.1 || recHas st.userProvidedMacros p.1 ||
     recHas st.definedInDocMacros p.1 || recHas acc p.1 then acc
  else acc ++ [(p.1, p.2)]

theorem addInferredUsedMacros_as_fold (st : DefinitionStore) (l : JsRec MacroInfo) :
    (addInferredUsedMacros st l).inferredUsedMacros =
      l.foldl (inferredStep st) st.inferredUsedMacros := rfl

theorem inferredFold_lookup (st : DefinitionStore) (l : JsRec MacroInfo)
    (acc : JsRec MacroInfo) (n : String)
    (h : (recHas st.defaultMacros n || recHas st.userProvidedMacros n ||
          recHas st.definedInDocMacros n) = true ∨ recHas acc n = true) :
    recLookup (l.foldl (inferredStep st) acc) n = recLookup acc n := by
  induction l generalizing acc with
  | nil => rfl
  | cons p rest ih =>
    show recLookup (rest.foldl (inferredStep st) (inferredStep st acc p)) n = _
    by_cases hc : (recHas st.defaultMacros p.1 || recHas st.userProvidedMacros p.1 ||
        recHas st.definedInDocMacros p.1 || recHas acc p.1) = true
    · have hstep : inferredStep st acc p = acc := by
        unfold inferredStep; rw [if_pos hc]
      rw [hstep]
      exact ih acc h
    · have hstep : inferredStep st acc p = acc ++ [(p.1, p.2)] := by
        unfold inferredStep; rw [if_neg hc]
      rw [hstep]
      have hpn : ¬ p.1 = n := by
        intro he
        rw [he] at hc
        rcases h with h | h
        · simp only [Bool.or_eq_true] at hc h
          exact hc (Or.inl h)
        · simp only [Bool.or_eq_true] at hc
          exact hc (Or.inr h)
      have hpb : (p.1 == n) = false := by simpa using hpn
      have hl : recLookup (acc ++ [(p.1, p.2)]) n = recLookup acc n := by
        rw [recLookup_append]
        have hs : recLookup [(p.1, p.2)] n = none := by
          simp [recLookup, List.find?, hpb]
        rw [hs, oalt_none_right]
      have harg : (recHas st.defaultMacros n || recHas st.userProvidedMacros n ||
          recHas st.definedInDocMacros n) = true ∨
          recHas (acc ++ [(p.1, p.2)]) n = true := by
        rcases h with h | h
        · exact Or.inl h
        · exact Or.inr (recHas_append_right _ _ _ h)
      rw [ih (acc ++ [(p.1, p.2)]) harg, hl]

theorem inferredFold_preserves_recHas (st : DefinitionStore) (l : JsRec MacroInfo)
    (acc : JsRec MacroInfo) (n : String) (h : recHas acc n = true) :
    recHas (l.foldl (inferredStep st) acc) n = true := by
  induction l generalizing acc with
  | nil => exact h
  | cons p rest ih =>
    show recHas (rest.foldl (inferredStep st) (inferredStep st acc p)) n = true
    by_cases hc : (recHas st.defaultMacros p.1 || recHas st.userProvidedMacros p.1 ||
        recHas st.definedInDocMacros p.1 || recHas acc p.1) = true
    · have hstep : inferredStep st acc p = acc := by
        unfold inferredStep; rw [if_pos hc]
      rw [hstep]; exact ih acc h
    · have hstep : inferredStep st acc p = acc ++ [(p.1, p.2)] := by
        unfold inferredStep; rw [if_neg hc]
      rw [hstep]
      exact ih _ (recHas_append_right _ _ _ h)

theorem inferredFold_keysNodup (st : DefinitionStore) (l : JsRec MacroInfo)
    (acc : JsRec MacroInfo) (h : recKeysNodup acc) :
    recKeysNodup (l.foldl (inferredStep st) acc) := by
  induction l generalizing acc with
  | nil => exact h
  | cons p rest ih =>
    show recKeysNodup (rest.foldl (inferredStep st) (inferredStep st acc p))
    by_cases hc : (recHas st.defaultMacros p.1 || recHas st.userProvidedMacros p.1 ||
        recHas st.definedInDocMacros p.1 || recHas acc p.1) = true
    · have hstep : inferredStep st acc p = acc := by
        unfold inferredStep; rw [if_pos hc]
      rw [hstep]; exact ih acc h
    · have hstep : inferredStep st acc p = acc ++ [(p.1, p.2)] := by
        unfold inferredStep; rw [if_neg hc]
      rw [hstep]
      have hfalse : recHas acc p.1 = false := by
        simp only [Bool.or_eq_true] at hc
        cases hfa : recHas acc p.1
        · rfl
        · exact absurd (Or.inr hfa) hc
      exact ih _ (recKeysNodup_append_new acc p.1 p.2 h hfalse)

/-- Invariant: every category record binds each key at most once
(automatic for genuine JavaScript objects). -/
def storeKeysNodup (st : DefinitionStore) : Prop :=
  recKeysNodup st.defaultMacros ∧ recKeysNodup st.userProvidedMacros ∧
  recKeysNodup st.definedInDocMacros ∧ recKeysNodup st.inferredUsedMacros ∧
  recKeysNodup st.ctanEnvs ∧ recKeysNodup st.userProvidedEnvs ∧
  recKeysNodup st.definedInDocEnvs

theorem storeKeysNodup_applyOp (st : DefinitionStore) (op : StoreOp)
    (h : storeKeysNodup st) : storeKeysNodup (applyOp st op) := by
  obtain ⟨h1, h2, h3, h4, h5, h6, h7⟩ := h
  cases op with
  | addDocMacros r =>
    exact ⟨h1, h2, recKeysNodup_recAssign _ _ h3, h4, h5, h6, h7⟩
  | addDocEnvs r =>
    exact ⟨h1, h2, h3, h4, h5, h6, recKeysNodup_recAssign _ _ h7⟩
  | addInferred r =>
    exact ⟨h1, h2, h3, inferredFold_keysNodup _ _ _ h4, h5, h6, h7⟩

theorem storeKeysNodup_applyOps (st : DefinitionStore) (ops : List StoreOp)
    (h : storeKeysNodup st) : storeKeysNodup (applyOps st ops) := by
  induction ops generalizing st with
  | nil => exact h
  | cons op rest ih => exact ih _ (storeKeysNodup_applyOp st op h)

theorem storeKeysNodup_initStore (loadDefaults : Bool)
    (user : JsRec MacroInfo) (ctan userEnvs : JsRec EnvInfo)
    (huser : recKeysNodup user) (hctan : recKeysNodup ctan)
    (henv : recKeysNodup userEnvs) :
    storeKeysNodup (initStore loadDefaults user ctan userEnvs) := by
  refine ⟨?_, huser, List.nodup_nil, List.nodup_nil, hctan, henv, List.nodup_nil⟩
  cases loadDefaults
  · exact List.nodup_nil
  · show recKeysNodup loadDefaultMacroSignatures
    unfold recKeysNodup loadDefaultMacroSignatures
    decide

/-- With at-most-once keys in each category, object-spread merging reduces to
priority lookup: document-defined, then user-provided, then default, then
inferred. -/
theorem mergeMacroRecords_lookup (st : DefinitionStore) (n : String)
    (hdoc : recKeysNodup st.definedInDocMacros)
    (huser : recKeysNodup st.userProvidedMacros)
    (hdef : recKeysNodup st.defaultMacros) :
    recLookup (mergeMacroRecords st) n =
      oalt (recLookup st.definedInDocMacros n)
        (oalt (recLookup st.userProvidedMacros n)
          (oalt (recLookup st.defaultMacros n)
            (recLookup st.inferredUsedMacros n))) := by
  unfold mergeMacroRecords
  rw [recLookup_recAssign, recLookup_recAssign, recLookup_recAssign,
    recLookupLast_eq_recLookup _ _ hdoc, recLookupLast_eq_recLookup _ _ huser,
    recLookupLast_eq_recLookup _ _ hdef]

/-! ## Claims C1, C2, C9: merge priority, inference non-override, monotonicity -/

/-- C1: For every sequence of insertions into the Definition Store and every
command name present in more than one category, the merged command view
(`getEffectiveMacroInfoRecord`) maps the name to the document-defined entry if
one exists, otherwise to the user-provided entry, otherwise to the default
entry, otherwise to the inferred entry; merge order, not insertion order,
decides the result. -/
theorem C1_merge_priority
    (ops : List StoreOp) (loadDefaults : Bool)
    (user : JsRec MacroInfo) (ctan userEnvs : JsRec EnvInfo)
    (huser : recKeysNodup user) (hctan : recKeysNodup ctan)
    (henv : recKeysNodup userEnvs) (n : String) :
    ∀ st, st = applyOps (initStore loadDefaults user ctan userEnvs) ops →
    ((∀ v, recLookup st.definedInDocMacros n = some v →
        recLookup (getEffectiveMacroInfoRecord st) n = some v) ∧
     (recLookup st.definedInDocMacros n = none →
      ∀ v, recLookup st.userProvidedMacros n = some v →
        recLookup (getEffectiveMacroInfoRecord st) n = some v) ∧
     (recLookup st.definedInDocMacros n = none →
      recLookup st.userProvidedMacros n = none →
      ∀ v, recLookup st.defaultMacros n = some v →
        recLookup (getEffectiveMacroInfoRecord st) n = some v) ∧
     (recLookup st.definedInDocMacros n = none →
      recLookup st.userProvidedMacros n = none →
      recLookup st.defaultMacros n = none →
        recLookup (getEffectiveMacroInfoRecord st) n =
          recLookup st.inferredUsedMacros n)) := by
  intro st hst
  have hinit := storeKeysNodup_initStore loadDefaults user ctan userEnvs huser hctan henv
  have hnod : storeKeysNodup st := hst ▸ storeKeysNodup_applyOps _ ops hinit
  obtain ⟨h1, h2, h3, _, _, _, _⟩ := hnod
  have hm := mergeMacroRecords_lookup st n h3 h2 h1
  refine ⟨?_, ?_, ?_, ?_⟩
  · intro v hv
    simp only [getEffectiveMacroInfoRecord]
    rw [hm, hv]
    rfl
  · intro hdoc v hv
    simp only [getEffectiveMacroInfoRecord]
    rw [hm, hdoc, hv]
    rfl
  · intro hdoc huserN v hv
    simp only [getEffectiveMacroInfoRecord]
    rw [hm, hdoc, huserN, hv]
    rfl
  · intro hdoc huserN hdef
    simp only [getEffectiveMacroInfoRecord]
    rw [hm, hdoc, huserN, hdef]
    rfl

/-- Witness for C1 at a concrete insertion sequence: the name `x` is inserted
as inferred first and as document-defined later; the merged view returns the
document-defined signature. -/
theorem C1_merge_priority_witness :
    recKeysNodup ([("x", MacroInfo.mk "o")] : JsRec MacroInfo) ∧
    recLookup (getEffectiveMacroInfoRecord (applyOps
      (initStore true [("x", MacroInfo.mk "o")] [] [])
      [StoreOp.addInferred [("x", MacroInfo.mk "")],
       StoreOp.addDocMacros [("x", MacroInfo.mk "m")]])) "x" =
      some (MacroInfo.mk "m") :=
  ⟨by unfold recKeysNodup; decide,
   (C1_merge_priority
      [StoreOp.addInferred [("x", MacroInfo.mk "")],
       StoreOp.addDocMacros [("x", MacroInfo.mk "m")]]
      true [("x", MacroInfo.mk "o")] [] []
      (by unfold recKeysNodup; decide) (by unfold recKeysNodup; decide)
      (by unfold recKeysNodup; decide) "x" _ rfl).1
     (MacroInfo.mk "m") (by decide)⟩

/-- C2: For every store state in which a command name is already present in
the default, user-provided, or document-defined category, calling
`addInferredUsedMacros` with that name is a no-op for that name: no inferred
entry is added and no existing entry is modified, regardless of the order of
prior calls (the state `st` is arbitrary). -/
theorem C2_addInferred_skips_known
    (st : DefinitionStore) (l : JsRec MacroInfo) (n : String)
    (h : recHas st.defaultMacros n = true ∨ recHas st.userProvidedMacros n = true ∨
         recHas st.definedInDocMacros n = true) :
    recLookup (addInferredUsedMacros st l).inferredUsedMacros n =
      recLookup st.inferredUsedMacros n ∧
    (addInferredUsedMacros st l).defaultMacros = st.defaultMacros ∧
    (addInferredUsedMacros st l).userProvidedMacros = st.userProvidedMacros ∧
    (addInferredUsedMacros st l).definedInDocMacros = st.definedInDocMacros ∧
    (addInferredUsedMacros st l).ctanEnvs = st.ctanEnvs ∧
    (addInferredUsedMacros st l).userProvidedEnvs = st.userProvidedEnvs ∧
    (addInferredUsedMacros st l).definedInDocEnvs = st.definedInDocEnvs := by
  refine ⟨?_, rfl, rfl, rfl, rfl, rfl, rfl⟩
  rw [addInferredUsedMacros_as_fold]
  apply inferredFold_lookup
  left
  rcases h with h | h | h <;> simp [h]

/-- A store with only the default command `x`, used in witnesses. -/
def sampleStoreA : DefinitionStore :=
  { defaultMacros := [("x", MacroInfo.mk "m")]
    userProvidedMacros := []
    definedInDocMacros := []
    inferredUsedMacros := []
    ctanEnvs := []
    userProvidedEnvs := []
    definedInDocEnvs := [] }

/-- Witness for C2: adding an inferred entry for `x`, which is already a
default command of `sampleStoreA`, leaves the inferred category unchanged. -/
theorem C2_addInferred_skips_known_witness :
    recHas sampleStoreA.defaultMacros "x" = true ∧
    recLookup (addInferredUsedMacros sampleStoreA
        [("x", MacroInfo.mk "m m")]).inferredUsedMacros "x" =
      recLookup sampleStoreA.inferredUsedMacros "x" :=
  ⟨by decide,
   (C2_addInferred_skips_known sampleStoreA [("x", MacroInfo.mk "m m")] "x"
      (Or.inl (by decide))).1⟩

/-- C9: For every mutating public operation of the Definition Store and every
category, the set of names present in that category after the operation is a
superset of the set present before it: no operation ever removes an entry.
(The read operations are modelled as pure functions returning copies, so they
cannot change the store by construction.) -/
theorem C9_store_monotone (st : DefinitionStore) (op : StoreOp) (n : String) :
    (recHas st.defaultMacros n = true →
      recHas (applyOp st op).defaultMacros n = true) ∧
    (recHas st.userProvidedMacros n = true →
      recHas (applyOp st op).userProvidedMacros n = true) ∧
    (recHas st.definedInDocMacros n = true →
      recHas (applyOp st op).definedInDocMacros n = true) ∧
    (recHas st.inferredUsedMacros n = true →
      recHas (applyOp st op).inferredUsedMacros n = true) ∧
    (recHas st.ctanEnvs n = true → recHas (applyOp st op).ctanEnvs n = true) ∧
    (recHas st.userProvidedEnvs n = true →
      recHas (applyOp st op).userProvidedEnvs n = true) ∧
    (recHas st.definedInDocEnvs n = true →
      recHas (applyOp st op).definedInDocEnvs n = true) := by
  cases op with
  | addDocMacros r =>
    exact ⟨id, id, fun h => recHas_recAssign_of_recHas _ _ _ h, id, id, id, id⟩
  | addDocEnvs r =>
    exact ⟨id, id, id, id, id, id, fun h => recHas_recAssign_of_recHas _ _ _ h⟩
  | addInferred r =>
    refine ⟨id, id, id, ?_, id, id, id⟩
    intro h
    show recHas (r.foldl (inferredStep st) st.inferredUsedMacros) n = true
    exact inferredFold_preserves_recHas st r _ n h

/-- Witness for C9: after a document-defined insertion, the default category
still contains `x`. -/
theorem C9_store_monotone_witness :
    recHas sampleStoreA.defaultMacros "x" = true ∧
    recHas (applyOp sampleStoreA
        (StoreOp.addDocMacros [("y", MacroInfo.mk "m")])).defaultMacros "x" = true :=
  ⟨by decide,
   (C9_store_monotone sampleStoreA
      (StoreOp.addDocMacros [("y", MacroInfo.mk "m")]) "x").1 (by decide)⟩

/-! ## The LaTeX AST (data model of the external `unified-latex` collaborator)

Node kinds used by the core: macro (command) nodes with an attached-argument
list, brace-delimited groups, whitespace, literal strings, comments, and
environments.  Content containers are sibling arrays, which is what the deep
`visit` traversal walks. -/

inductive TNode where
  | cmd (name : String) (args : List (List TNode))
  | grp (children : List TNode)
  | ws
  | str (s : String)
  | comm (s : String)
  | env (name : String) (body : List TNode)

/-- Candidate arity of one command occurrence: the number of consecutive
brace-group siblings immediately following it, skipping whitespace siblings
and stopping at the first non-group non-whitespace sibling (the `while` loop
of `DefinitionExtractor.extractInferredUsedMacros`). -/
def countArgsAfter : List TNode → Nat
  | TNode.ws :: rest => countArgsAfter rest
  | TNode.grp _ :: rest => countArgsAfter rest + 1
  | _ => 0

mutual

/-- Specification-side collection: every command occurrence in a sibling list
(deep traversal), paired with its candidate arity. -/
def occsList : List TNode → List (String × Nat)
  | [] => []
  | n :: rest => occsNode n rest ++ occsList rest

def occsNode : TNode → List TNode → List (String × Nat)
  | TNode.cmd name args, rest => (name, countArgsAfter rest) :: occsArgs args
  | TNode.grp children, _ => occsList children
  | TNode.env _ body, _ => occsList body
  | _, _ => []

def occsArgs : List (List TNode) → List (String × Nat)
  | [] => []
  | a :: rest => occsList a ++ occsArgs rest

end

mutual

/-- Implementation-side collection mirroring the visitor of
`extractInferredUsedMacros`: a command occurrence is recorded only when its
name is non-empty and not in the known-name set; traversal still descends
into the skipped command's arguments. -/
def inferOccsList (known : String → Bool) : List TNode → List (String × Nat)
  | [] => []
  | n :: rest => inferOccsNode known n rest ++ inferOccsList known rest

def inferOccsNode (known : String → Bool) : TNode → List TNode → List (String × Nat)
  | TNode.cmd name args, rest =>
      (if name ≠ "" ∧ known name = false then [(name, countArgsAfter rest)] else []) ++
        inferOccsArgs known args
  | TNode.grp children, _ => inferOccsList known children
  | TNode.env _ body, _ => inferOccsList known body
  | _, _ => []

def inferOccsArgs (known : String → Bool) : List (List TNode) → List (String × Nat)
  | [] => []
  | a :: rest => inferOccsList known a ++ inferOccsArgs known rest

end

/-- The `potentialCustomMacros` map update: record an occurrence, keeping, per
name, the maximum arity seen so far. -/
def maxStep (acc : JsRec Nat) (p : String × Nat) : JsRec Nat :=
  match recLookup acc p.1 with
  | none => recSet acc p.1 p.2
  | some old => if old < p.2 then recSet acc p.1 p.2 else acc

def maxArityFold (occs : List (String × Nat)) : JsRec Nat :=
  occs.foldl maxStep []

/-- The signature string built by the `for` loop: `""`, `"m"`, `"m m"`, …. -/
def mkSig (n : Nat) : String :=
  (List.range n).foldl (fun s _ => s ++ (if s = "" then "" else " ") ++ "m") ""

/-- `DefinitionExtractor.extractInferredUsedMacros` over a parsed tree,
given the known-name predicate supplied by the caller. -/
def extractInferredFromTree (known : String → Bool) (tree : List TNode) :
    JsRec MacroInfo :=
  (maxArityFold (inferOccsList known tree)).map (fun p => (p.1, MacroInfo.mk (mkSig p.2)))

/-- Arities of all occurrences of the name `n` in the tree, in visit order. -/
def aritiesOf (tree : List TNode) (n : String) : List Nat :=
  ((occsList tree).filter (fun p => p.1 == n)).map (fun p => p.2)

/-! ## Characterizing the arity-inference extractor -/

theorem recLookup_mapVal {α β : Type} (r : JsRec α) (f : α → β) (n : String) :
    recLookup (r.map (fun p => (p.1, f p.2))) n = (recLookup r n).map f := by
  induction r with
  | nil => rfl
  | cons p rest ih =>
    rw [List.map_cons, recLookup_cons, recLookup_cons]
    by_cases h : p.1 = n
    · simp [h]
    · simp only [h, if_neg h, if_false]
      exact ih

/-- The predicate applied by the inference visitor to decide whether an
occurrence is recorded. -/
def inferPred (known : String → Bool) (p : String × Nat) : Bool :=
  decide (p.1 ≠ "") && !known p.1

mutual

theorem inferOccsList_eq (known : String → Bool) :
    (l : List TNode) →
      inferOccsList known l = (occsList l).filter (inferPred known)
  | [] => rfl
  | n :: rest => by
    show inferOccsNode known n rest ++ inferOccsList known rest = _
    rw [show occsList (n :: rest) = occsNode n rest ++ occsList rest from rfl,
      List.filter_append, inferOccsNode_eq known n rest, inferOccsList_eq known rest]

theorem inferOccsNode_eq (known : String → Bool) :
    (n : TNode) → (rest : List TNode) →
      inferOccsNode known n rest = (occsNode n rest).filter (inferPred known)
  | TNode.cmd name args, rest => by
    show (if name ≠ "" ∧ known name = false then [(name, countArgsAfter rest)] else []) ++
        inferOccsArgs known args = _
    rw [show occsNode (TNode.cmd name args) rest =
        (name, countArgsAfter rest) :: occsArgs args from rfl,
      List.filter_cons, inferOccsArgs_eq known args]
    by_cases h : name ≠ "" ∧ known name = false
    · have hp : inferPred known (name, countArgsAfter rest) = true := by
        unfold inferPred
        simp [h.1, h.2]
      rw [if_pos h, hp]
      rfl
    · have hp : inferPred known (name, countArgsAfter rest) = false := by
        unfold inferPred
        rcases not_and_or.mp h with h1 | h2
        · simp [not_not.mp h1]
        · cases hkn : known name with
          | false => exact absurd hkn h2
          | true => simp [hkn]
      rw [if_neg h, hp]
      rfl
  | TNode.grp children, rest => inferOccsList_eq known children
  | TNode.env _ body, rest => inferOccsList_eq known body
  | TNode.ws, _ => rfl
  | TNode.str _, _ => rfl
  | TNode.comm _, _ => rfl

theorem inferOccsArgs_eq (known : String → Bool) :
    (as : List (List TNode)) →
      inferOccsArgs known as = (occsArgs as).filter (inferPred known)
  | [] => rfl
  | a :: rest => by
    show inferOccsList known a ++ inferOccsArgs known rest = _
    rw [show occsArgs (a :: rest) = occsList a ++ occsArgs rest from rfl,
      List.filter_append, inferOccsList_eq known a, inferOccsArgs_eq known rest]

end

/-- Maximum of a list of already-seen arities combined with the stored one. -/
def combineMax : Option Nat → List Nat → Option Nat
  | o, [] => o
  | none, x :: xs => combineMax (some x) xs
  | some a, x :: xs => combineMax (some (max a x)) xs

theorem combineMax_nil (o : Option Nat) : combineMax o [] = o := by
  cases o <;> rfl

theorem maxFold_lookup (occs : List (String × Nat)) (acc : JsRec Nat) (n : String) :
    recLookup (occs.foldl maxStep acc) n =
      combineMax (recLookup acc n)
        (((occs.filter (fun p => p.1 == n)).map (fun p => p.2))) := by
  induction occs generalizing acc with
  | nil =>
    show recLookup acc n = _
    rw [List.filter_nil, List.map_nil, combineMax_nil]
  | cons p rest ih =>
    show recLookup (rest.foldl maxStep (maxStep acc p)) n = _
    rw [List.filter_cons]
    by_cases hpn : p.1 = n
    · have hb : (p.1 == n) = true := by simpa using hpn
      rw [hb, if_pos rfl, List.map_cons]
      have hstepEq : recLookup (maxStep acc p) n =
          combineMax (recLookup acc n) [p.2] := by
        unfold maxStep
        cases hacc : recLookup acc p.1 with
        | none =>
          have haccn : recLookup acc n = none := hpn ▸ hacc
          show recLookup (recSet acc p.1 p.2) n = _
          rw [haccn, recLookup_recSet, if_pos hpn.symm]
          rfl
        | some old =>
          have haccn : recLookup acc n = some old := hpn ▸ hacc
          show recLookup (if old < p.2 then recSet acc p.1 p.2 else acc) n = _
          rw [haccn]
          by_cases hlt : old < p.2
          · rw [if_pos hlt, recLookup_recSet, if_pos hpn.symm]
            show some p.2 = combineMax (some (max old p.2)) []
            rw [combineMax_nil, Nat.max_eq_right (Nat.le_of_lt hlt)]
          · rw [if_neg hlt]
            show recLookup acc n = combineMax (some (max old p.2)) []
            rw [combineMax_nil, Nat.max_eq_left (Nat.le_of_not_lt hlt), haccn]
      rw [ih (maxStep acc p), hstepEq]
      cases hr : recLookup acc n <;> rfl
    · have hb : (p.1 == n) = false := by simpa using hpn
      rw [hb]
      have hstep : recLookup (maxStep acc p) n = recLookup acc n := by
        unfold maxStep
        cases hacc : recLookup acc p.1 with
        | none =>
          show recLookup (recSet acc p.1 p.2) n = _
          rw [recLookup_recSet, if_neg (fun h => hpn h.symm)]
        | some old =>
          show recLookup (if old < p.2 then recSet acc p.1 p.2 else acc) n = _
          by_cases hlt : old < p.2
          · rw [if_pos hlt, recLookup_recSet, if_neg (fun h => hpn h.symm)]
          · rw [if_neg hlt]
      rw [ih (maxStep acc p), hstep]
      rfl

theorem combineMax_some_eq (xs : List Nat) :
    ∀ a : Nat, combineMax (some a) xs = some (xs.foldl max a) := by
  induction xs with
  | nil => intro a; rfl
  | cons x rest ih =>
    intro a
    show combineMax (some (max a x)) rest = _
    rw [ih (max a x)]
    rfl

theorem combineMax_none_cons (x : Nat) (xs : List Nat) :
    combineMax none (x :: xs) = some (xs.foldl max x) := by
  show combineMax (some x) xs = _
  exact combineMax_some_eq xs x

theorem foldlMax_zero_cons (x : Nat) (xs : List Nat) :
    (x :: xs).foldl max 0 = xs.foldl max x := by
  show xs.foldl max (max 0 x) = _
  rw [Nat.zero_max]

theorem foldlMax_mem (xs : List Nat) : ∀ a : Nat, xs.foldl max a ∈ a :: xs := by
  induction xs with
  | nil => intro a; exact List.mem_singleton.mpr rfl
  | cons x rest ih =>
    intro a
    show rest.foldl max (max a x) ∈ a :: x :: rest
    rcases max_choice a x with h | h
    · rcases List.mem_cons.mp (ih (max a x)) with h' | h'
      · refine List.mem_cons.mpr (Or.inl ?_)
        rw [h', h]
      · exact List.mem_cons.mpr (Or.inr (List.mem_cons.mpr (Or.inr h')))
    · rcases List.mem_cons.mp (ih (max a x)) with h' | h'
      · refine List.mem_cons.mpr (Or.inr (List.mem_cons.mpr (Or.inl ?_)))
        rw [h', h]
      · exact List.mem_cons.mpr (Or.inr (List.mem_cons.mpr (Or.inr h')))

theorem le_foldlMax_init (xs : List Nat) : ∀ a : Nat, a ≤ xs.foldl max a := by
  induction xs with
  | nil => intro a; exact Nat.le_refl a
  | cons x rest ih =>
    intro a
    show a ≤ rest.foldl max (max a x)
    exact Nat.le_trans (Nat.le_max_left a x) (ih (max a x))

theorem le_foldlMax_mem (xs : List Nat) :
    ∀ (a b : Nat), b ∈ xs → b ≤ xs.foldl max a := by
  induction xs with
  | nil => intro a b hb; exact absurd hb (List.not_mem_nil b)
  | cons x rest ih =>
    intro a b hb
    show b ≤ rest.foldl max (max a x)
    rcases List.mem_cons.mp hb with rfl | hb'
    · exact Nat.le_trans (Nat.le_max_right a b) (le_foldlMax_init rest (max a b))
    · exact ih (max a x) b hb'

theorem mkSig_chars_aux (l : List Nat) (s : String)
    (hs : ∀ c ∈ s.toList, c = 'm' ∨ c = ' ') :
    ∀ c ∈ (l.foldl (fun s _ => s ++ (if s = "" then "" else " ") ++ "m") s).toList,
      c = 'm' ∨ c = ' ' := by
  induction l generalizing s with
  | nil => exact hs
  | cons x rest ih =>
    apply ih
    intro c hc
    have hdata : (s ++ (if s = "" then "" else " ") ++ "m").toList =
        s.toList ++ (if s = "" then "" else " ").toList ++ "m".toList := by
      show (s ++ (if s = "" then "" else " ") ++ "m").data =
        s.data ++ (if s = "" then "" else " ").data ++ "m".data
      rw [String.data_append, String.data_append]
    rw [hdata] at hc
    rcases List.mem_append.mp hc with hc' | hc'
    · rcases List.mem_append.mp hc' with hc'' | hc''
      · exact hs c hc''
      · right
        by_cases hse : s = ""
        · rw [if_pos hse] at hc''
          exact absurd hc'' (List.not_mem_nil c)
        · rw [if_neg hse] at hc''
          have hm : c ∈ [' '] := hc''
          exact List.mem_singleton.mp hm
    · left
      have hm : c ∈ ['m'] := hc'
      exact List.mem_singleton.mp hm

theorem mkSig_chars (n : Nat) : ∀ c ∈ (mkSig n).toList, c = 'm' ∨ c = ' ' := by
  apply mkSig_chars_aux
  intro c hc
  exact absurd hc (List.not_mem_nil c)

theorem recLookup_map_mkSig (r : JsRec Nat) (n : String) :
    recLookup (r.map (fun p => (p.1, MacroInfo.mk (mkSig p.2)))) n =
      (recLookup r n).map (fun k => MacroInfo.mk (mkSig k)) :=
  recLookup_mapVal r (fun k => MacroInfo.mk (mkSig k)) n

/-- Key equation: the inference extractor's entry for an unknown, non-empty
name is built from the maximum-combined arity of the name's occurrences. -/
theorem extractInferred_lookup (known : String → Bool) (t : List TNode) (n : String)
    (hn : n ≠ "") (hk : known n = false) :
    recLookup (extractInferredFromTree known t) n =
      (combineMax none (aritiesOf t n)).map (fun k => MacroInfo.mk (mkSig k)) := by
  unfold extractInferredFromTree
  rw [recLookup_map_mkSig]
  show (recLookup (List.foldl maxStep [] (inferOccsList known t)) n).map _ = _
  rw [maxFold_lookup]
  have hfil : (inferOccsList known t).filter (fun p => p.1 == n) =
      (occsList t).filter (fun p => p.1 == n) := by
    rw [inferOccsList_eq, List.filter_filter]
    apply List.filter_congr
    intro a _
    by_cases ha : a.1 = n
    · have h1 : inferPred known a = true := by
        unfold inferPred
        rw [ha]
        simp [hn, hk]
      rw [h1]
      simp
    · have hb : (a.1 == n) = false := by simpa using ha
      rw [hb]
      simp
  rw [hfil]
  rfl

/-- Claim C5: For every file and every command name absent from the supplied
known-name set, the candidate arity of each occurrence is the count of
consecutive group siblings immediately following the command node (skipping
whitespace, stopping at the first other sibling); the signature recorded for
the name consists of N mandatory tokens where N is the maximum candidate
arity over all occurrences in the file; and an inferred signature never
contains an optional-parameter token (its characters are only `m` and
spaces). -/
theorem C5_arity_inference (known : String → Bool) (t : List TNode) (n : String)
    (hn : n ≠ "") (hk : known n = false) :
    (aritiesOf t n = [] → recLookup (extractInferredFromTree known t) n = none) ∧
    (∀ x xs, aritiesOf t n = x :: xs →
      recLookup (extractInferredFromTree known t) n =
        some (MacroInfo.mk (mkSig ((aritiesOf t n).foldl max 0))) ∧
      (aritiesOf t n).foldl max 0 ∈ aritiesOf t n ∧
      (∀ a ∈ aritiesOf t n, a ≤ (aritiesOf t n).foldl max 0)) ∧
    (∀ p ∈ extractInferredFromTree known t, ∀ c ∈ p.2.signature.toList,
      c = 'm' ∨ c = ' ') := by
  refine ⟨?_, ?_, ?_⟩
  · intro hempty
    rw [extractInferred_lookup known t n hn hk, hempty]
    rfl
  · intro x xs hcons
    refine ⟨?_, ?_, ?_⟩
    · rw [extractInferred_lookup known t n hn hk, hcons, combineMax_none_cons,
        foldlMax_zero_cons]
      rfl
    · rw [hcons, foldlMax_zero_cons]
      exact foldlMax_mem xs x
    · intro a ha
      rw [hcons] at ha
      rw [hcons, foldlMax_zero_cons]
      rcases List.mem_cons.mp ha with rfl | ha'
      · exact le_foldlMax_init xs a
      · exact le_foldlMax_mem xs x a ha'
  · intro p hp
    unfold extractInferredFromTree at hp
    rcases List.mem_map.mp hp with ⟨q, _, hq⟩
    intro c hc
    rw [← hq] at hc
    exact mkSig_chars q.2 c hc

/-- The tree parsed from a file containing `\foo{a} \foo{x}{y}`. -/
def sampleTreeFoo : List TNode :=
  [TNode.cmd "foo" [], TNode.grp [TNode.str "a"], TNode.ws,
   TNode.cmd "foo" [], TNode.grp [TNode.str "x"], TNode.grp [TNode.str "y"]]

/-- Witness for C5: `\foo{a}` then `\foo{x}{y}` in one file yields the
signature `"m m"` (max across occurrences), not `"m"`. -/
theorem C5_arity_inference_witness :
    ("foo" ≠ "") ∧ ((fun _ => false : String → Bool) "foo" = false) ∧
    recLookup (extractInferredFromTree (fun _ => false) sampleTreeFoo) "foo" =
      some (MacroInfo.mk "m m") :=
  ⟨by decide, rfl,
   ((C5_arity_inference (fun _ => false) sampleTreeFoo "foo" (by decide) rfl).2.1
      1 [2] rfl).1⟩

/-- Claim C10: Once a command name is in the inferred category, its stored
signature never changes for the rest of the run: a later
`addInferredUsedMacros` call with the same name is skipped even if it carries
a larger arity, and a later file's extraction never re-infers the name
because the known-name set supplied to the extractor (the keys of the merged
view) already contains every inferred name. -/
theorem C10_inferred_first_wins (st : DefinitionStore) (t : List TNode) (n : String)
    (v : MacroInfo) (l : JsRec MacroInfo)
    (h : recLookup st.inferredUsedMacros n = some v) :
    recLookup (extractInferredFromTree
        (fun k => recHas (getEffectiveMacroInfoRecord st) k) t) n = none ∧
    recLookup (addInferredUsedMacros st l).inferredUsedMacros n = some v := by
  have h0 : recHas st.inferredUsedMacros n = true := by
    unfold recHas
    rw [h]
    rfl
  constructor
  · have hknown : recHas (getEffectiveMacroInfoRecord st) n = true := by
      unfold getEffectiveMacroInfoRecord mergeMacroRecords
      exact recHas_recAssign_of_recHas _ _ _
        (recHas_recAssign_of_recHas _ _ _ (recHas_recAssign_of_recHas _ _ _ h0))
    unfold extractInferredFromTree
    rw [recLookup_map_mkSig]
    show (recLookup (List.foldl maxStep [] (inferOccsList _ t)) n).map _ = none
    rw [maxFold_lookup]
    have hfilter : (inferOccsList
        (fun k => recHas (getEffectiveMacroInfoRecord st) k) t).filter
          (fun p => p.1 == n) = [] := by
      rw [inferOccsList_eq, List.filter_filter]
      rw [List.filter_eq_nil_iff.mpr]
      intro a _
      by_cases ha : a.1 = n
      · have h1 : inferPred (fun k => recHas (getEffectiveMacroInfoRecord st) k) a
            = false := by
          unfold inferPred
          rw [ha]
          simp [hknown]
        simp [h1]
      · have hb : (a.1 == n) = false := by simpa using ha
        simp [hb]
    rw [hfilter]
    rfl
  · rw [addInferredUsedMacros_as_fold]
    rw [inferredFold_lookup st l st.inferredUsedMacros n (Or.inr h0), h]

/-- A store whose inferred category already holds `x`, used in witnesses. -/
def sampleStoreB : DefinitionStore :=
  { defaultMacros := []
    userProvidedMacros := []
    definedInDocMacros := []
    inferredUsedMacros := [("x", MacroInfo.mk "m")]
    ctanEnvs := []
    userProvidedEnvs := []
    definedInDocEnvs := [] }

/-- Witness for C10: `x` was inferred with one argument; a later file using
`\x{a}{b}` does not re-infer it, and a direct re-add with a larger arity is
skipped. -/
theorem C10_inferred_first_wins_witness :
    recLookup sampleStoreB.inferredUsedMacros "x" = some (MacroInfo.mk "m") ∧
    recLookup (extractInferredFromTree
        (fun k => recHas (getEffectiveMacroInfoRecord sampleStoreB) k)
        [TNode.cmd "x" [], TNode.grp [], TNode.grp []]) "x" = none ∧
    recLookup (addInferredUsedMacros sampleStoreB
        [("x", MacroInfo.mk "m m")]).inferredUsedMacros "x" =
      some (MacroInfo.mk "m") := by
  have h := C10_inferred_first_wins sampleStoreB
    [TNode.cmd "x" [], TNode.grp [], TNode.grp []] "x" (MacroInfo.mk "m")
    [("x", MacroInfo.mk "m m")] rfl
  exact ⟨rfl, h.1, h.2⟩

/-! ## The per-file pipeline (`FileContentParser.parseFileContent`)

The external collaborator primitives (raw parser, argument shaping,
environment processing) may throw; they are modelled as `Except`-valued
functions.  The declaration-extraction helpers are total.  The control flow
mirrors the source: one outer try/catch around steps 1-9 whose handler
returns a null tree with an error message, plus an inner try/catch around
step 6 (environment processing) only. -/

structure IncludeRef where
  path : String
  command : String
  rawPath : String
deriving DecidableEq, Repr

structure FileParseOutcome where
  ast : Option (List TNode)
  newlyFoundMacros : JsRec MacroInfo
  newlyFoundEnvironments : JsRec EnvInfo
  includedFiles : List IncludeRef
  error : Option String

structure FileOps where
  rawParse : String → Except String (List TNode)
  attachArgs : List TNode → JsRec MacroInfo → Except String (List TNode)
  procEnvs : List TNode → JsRec EnvInfo → Except String (List TNode)
  extractDefinedMacros : List TNode → JsRec MacroInfo
  extractDefinedEnvs : List TNode → JsRec EnvInfo
  extractIncludes : List TNode → String → List IncludeRef

def getEffectiveEnvInfoRecord (st : DefinitionStore) : JsRec EnvInfo :=
  mergeEnvironmentRecords st

/-- The outcome built by the outer catch handler. -/
def abortOutcome (e : String) : FileParseOutcome :=
  { ast := none, newlyFoundMacros := [], newlyFoundEnvironments := [],
    includedFiles := [], error := some ("parseFileContent failed: " ++ e) }

/-- Steps 7-9: inference extraction over the (best-effort) tree, the final
argument-shaping pass, and include extraction. -/
def pipelineStepsSeven (ops : FileOps) (st2 : DefinitionStore)
    (ast3 : List TNode) (baseDir : String)
    (definedMacros : JsRec MacroInfo) (definedEnvs : JsRec EnvInfo) :
    DefinitionStore × FileParseOutcome :=
  match ops.attachArgs ast3 (getEffectiveMacroInfoRecord
      (addInferredUsedMacros st2 (extractInferredFromTree
        (fun k => recHas (getEffectiveMacroInfoRecord st2) k) ast3))) with
  | Except.error e =>
    (addInferredUsedMacros st2 (extractInferredFromTree
      (fun k => recHas (getEffectiveMacroInfoRecord st2) k) ast3), abortOutcome e)
  | Except.ok ast4 =>
    (addInferredUsedMacros st2 (extractInferredFromTree
      (fun k => recHas (getEffectiveMacroInfoRecord st2) k) ast3),
     { ast := some ast4
       newlyFoundMacros := recAssign definedMacros (extractInferredFromTree
         (fun k => recHas (getEffectiveMacroInfoRecord st2) k) ast3)
       newlyFoundEnvironments := definedEnvs
       includedFiles := ops.extractIncludes ast4 baseDir
       error := none })

/-- Steps 6-9 of the pipeline: environment processing (with its own
try/catch), inference extraction, the final argument-shaping pass, and
include extraction. -/
def pipelineStepsSix (ops : FileOps) (st2 : DefinitionStore)
    (ast2 : List TNode) (baseDir : String)
    (definedMacros : JsRec MacroInfo) (definedEnvs : JsRec EnvInfo) :
    DefinitionStore × FileParseOutcome :=
  pipelineStepsSeven ops st2
    (match ops.procEnvs ast2 (getEffectiveEnvInfoRecord st2) with
     | Except.error _ => ast2
     | Except.ok t => t)
    baseDir definedMacros definedEnvs

/-- Steps 4-5 of the pipeline: environment-definition extraction and the
second argument-shaping pass. -/
def pipelineStepsFour (ops : FileOps) (st1 : DefinitionStore)
    (ast1 : List TNode) (baseDir : String) (definedMacros : JsRec MacroInfo) :
    DefinitionStore × FileParseOutcome :=
  match ops.attachArgs ast1 (getEffectiveMacroInfoRecord
      (addDocumentDefinedEnvironments st1 (ops.extractDefinedEnvs ast1))) with
  | Except.error e =>
    (addDocumentDefinedEnvironments st1 (ops.extractDefinedEnvs ast1), abortOutcome e)
  | Except.ok ast2 =>
    pipelineStepsSix ops
      (addDocumentDefinedEnvironments st1 (ops.extractDefinedEnvs ast1))
      ast2 baseDir definedMacros (ops.extractDefinedEnvs ast1)

/-- Steps 2-3 of the pipeline: command-definition extraction and the first
argument-shaping pass. -/
def pipelineStepsTwo (ops : FileOps) (st : DefinitionStore)
    (ast0 : List TNode) (baseDir : String) :
    DefinitionStore × FileParseOutcome :=
  match ops.attachArgs ast0 (getEffectiveMacroInfoRecord
      (addDocumentDefinedMacros st (ops.extractDefinedMacros ast0))) with
  | Except.error e =>
    (addDocumentDefinedMacros st (ops.extractDefinedMacros ast0), abortOutcome e)
  | Except.ok ast1 =>
    pipelineStepsFour ops
      (addDocumentDefinedMacros st (ops.extractDefinedMacros ast0))
      ast1 baseDir (ops.extractDefinedMacros ast0)

def parseFileContent (ops : FileOps) (st : DefinitionStore)
    (fileContent baseDir : String) : DefinitionStore × FileParseOutcome :=
  match ops.rawParse fileContent with
  | Except.error e => (st, abortOutcome e)
  | Except.ok ast0 => pipelineStepsTwo ops st ast0 baseDir

/-- An empty store, used by pipeline examples. -/
def emptyStore : DefinitionStore :=
  { defaultMacros := [], userProvidedMacros := [], definedInDocMacros := [],
    inferredUsedMacros := [], ctanEnvs := [], userProvidedEnvs := [],
    definedInDocEnvs := [] }

/-- Collaborators whose raw parse succeeds but whose argument shaping always
throws. -/
def attachFailOps : FileOps :=
  { rawParse := fun _ => Except.ok []
    attachArgs := fun _ _ => Except.error "attach failed"
    procEnvs := fun t _ => Except.ok t
    extractDefinedMacros := fun _ => []
    extractDefinedEnvs := fun _ => []
    extractIncludes := fun _ _ => [] }

/-- Counterexample to C3 as stated: when the pass-1 argument shaping (step 3)
throws, the pipeline does NOT continue to completion with the current tree —
the outer handler aborts the file with `ast = null` and an error, exactly as
for a step-1 failure. -/
theorem C3_counterexample :
    (parseFileContent attachFailOps emptyStore "c" "/d").2.ast = none ∧
    (parseFileContent attachFailOps emptyStore "c" "/d").2.error =
      some "parseFileContent failed: attach failed" := ⟨rfl, rfl⟩

/-- Claim C3 (amended): a step-1 raw-parse failure aborts the file with a null
tree and a non-empty error; a step-6 environment-processing failure is caught
and the pipeline continues to completion, returning a shaped tree; but a
failure in the argument-shaping passes of steps 3, 5 or 8 is caught only by
the per-file outer handler, which aborts the file with a null tree and a
non-empty error rather than continuing with the partially shaped tree. -/
theorem C3_pipeline_failure_semantics (ops : FileOps) (st : DefinitionStore)
    (content baseDir : String) :
    (∀ e, ops.rawParse content = Except.error e →
      (parseFileContent ops st content baseDir).2.ast = none ∧
      (parseFileContent ops st content baseDir).2.error.isSome = true) ∧
    ((∀ t r, ∃ t', ops.attachArgs t r = Except.ok t') →
      ∀ t0, ops.rawParse content = Except.ok t0 →
      (parseFileContent ops st content baseDir).2.ast.isSome = true ∧
      (parseFileContent ops st content baseDir).2.error = none) ∧
    (∀ t0 e, ops.rawParse content = Except.ok t0 →
      ops.attachArgs t0 (getEffectiveMacroInfoRecord
        (addDocumentDefinedMacros st (ops.extractDefinedMacros t0))) =
          Except.error e →
      (parseFileContent ops st content baseDir).2.ast = none ∧
      (parseFileContent ops st content baseDir).2.error.isSome = true) := by
  refine ⟨?_, ?_, ?_⟩
  · intro e hraw
    unfold parseFileContent
    rw [hraw]
    exact ⟨rfl, rfl⟩
  · intro hattach t0 hraw
    unfold parseFileContent
    rw [hraw]
    show (pipelineStepsTwo ops st t0 baseDir).2.ast.isSome = true ∧
      (pipelineStepsTwo ops st t0 baseDir).2.error = none
    unfold pipelineStepsTwo
    obtain ⟨t1, h1⟩ := hattach t0 (getEffectiveMacroInfoRecord
      (addDocumentDefinedMacros st (ops.extractDefinedMacros t0)))
    rw [h1]
    show (pipelineStepsFour ops _ t1 baseDir _).2.ast.isSome = true ∧
      (pipelineStepsFour ops _ t1 baseDir _).2.error = none
    unfold pipelineStepsFour
    obtain ⟨t2, h2⟩ := hattach t1 (getEffectiveMacroInfoRecord
      (addDocumentDefinedEnvironments
        (addDocumentDefinedMacros st (ops.extractDefinedMacros t0))
        (ops.extractDefinedEnvs t1)))
    rw [h2]
    show (pipelineStepsSix ops _ t2 baseDir _ _).2.ast.isSome = true ∧
      (pipelineStepsSix ops _ t2 baseDir _ _).2.error = none
    unfold pipelineStepsSix
    cases hp : ops.procEnvs t2 (getEffectiveEnvInfoRecord
        (addDocumentDefinedEnvironments
          (addDocumentDefinedMacros st (ops.extractDefinedMacros t0))
          (ops.extractDefinedEnvs t1))) with
    | error e2 =>
      show (pipelineStepsSeven ops _ t2 baseDir _ _).2.ast.isSome = true ∧
        (pipelineStepsSeven ops _ t2 baseDir _ _).2.error = none
      unfold pipelineStepsSeven
      obtain ⟨t4, h4⟩ := hattach t2 _
      rw [h4]
      exact ⟨rfl, rfl⟩
    | ok tp =>
      show (pipelineStepsSeven ops _ tp baseDir _ _).2.ast.isSome = true ∧
        (pipelineStepsSeven ops _ tp baseDir _ _).2.error = none
      unfold pipelineStepsSeven
      obtain ⟨t4, h4⟩ := hattach tp _
      rw [h4]
      exact ⟨rfl, rfl⟩
  · intro t0 e hraw hatt
    unfold parseFileContent
    rw [hraw]
    show (pipelineStepsTwo ops st t0 baseDir).2.ast = none ∧
      (pipelineStepsTwo ops st t0 baseDir).2.error.isSome = true
    unfold pipelineStepsTwo
    rw [hatt]
    exact ⟨rfl, rfl⟩

/-- Collaborators whose environment processing throws but everything else
succeeds. -/
def envFailOps : FileOps :=
  { rawParse := fun _ => Except.ok []
    attachArgs := fun t _ => Except.ok t
    procEnvs := fun _ _ => Except.error "env processing failed"
    extractDefinedMacros := fun _ => []
    extractDefinedEnvs := fun _ => []
    extractIncludes := fun _ _ => [] }

/-- Witness for amended C3: with a throwing environment processor and a
succeeding argument shaper, the file completes with a tree and no error. -/
theorem C3_pipeline_failure_semantics_witness :
    envFailOps.rawParse "c" = Except.ok [] ∧
    (parseFileContent envFailOps emptyStore "c" "/d").2.ast.isSome = true ∧
    (parseFileContent envFailOps emptyStore "c" "/d").2.error = none := by
  have h := (C3_pipeline_failure_semantics envFailOps emptyStore "c" "/d").2.1
    (fun t r => ⟨t, rfl⟩) [] rfl
  exact ⟨rfl, h.1, h.2⟩

/-! ## Environment definition extraction (C7)

`DefinitionExtractor.extractDefinedEnvironmentsFromAst` builds the
document-defined record from the spec list produced by `listNewEnvironments`
in document order, overwriting re-declared names, with no warning.  The
legacy `MacroHandler.extractAndProcessEnvironmentDefinitions` warns only when
a spec's name is already present in the `definedInDocEnvs` bucket from an
earlier extraction call, then registers everything with `Object.assign`. -/

structure NewEnvironmentSpec where
  name : String
  signature : String
deriving DecidableEq, Repr

/-- `DefinitionExtractor.extractDefinedEnvironmentsFromAst`, from the spec
list: `newEnvs[spec.name] = { signature }` for every spec with truthy name. -/
def extractDefinedEnvironmentsFromSpecs (specs : List NewEnvironmentSpec) :
    JsRec EnvInfo :=
  specs.foldl (fun acc s =>
    if s.name ≠ "" then recSet acc s.name (EnvInfo.mk s.signature) else acc) []

def envRedefWarning (name : String) : String :=
  "Environment " ++ name ++ " is being redefined within the document." ++
    " Previous definition will be overwritten."

def envStep (prior : JsRec EnvInfo) (acc : JsRec EnvInfo × List String)
    (s : NewEnvironmentSpec) : JsRec EnvInfo × List String :=
  (recSet acc.1 s.name (EnvInfo.mk s.signature),
   if recHas prior s.name then acc.2 ++ [envRedefWarning s.name] else acc.2)

/-- `MacroHandler.extractAndProcessEnvironmentDefinitions`: returns the
updated `definedInDocEnvs` bucket and the warnings emitted. -/
def extractAndProcessEnvironmentDefinitions (definedInDocEnvs : JsRec EnvInfo)
    (specs : List NewEnvironmentSpec) : JsRec EnvInfo × List String :=
  (recAssign definedInDocEnvs (specs.foldl (envStep definedInDocEnvs) ([], [])).1,
   (specs.foldl (envStep definedInDocEnvs) ([], [])).2)

theorem envPairFold_fst (prior : JsRec EnvInfo) (specs : List NewEnvironmentSpec) :
    ∀ acc : JsRec EnvInfo × List String,
      (specs.foldl (envStep prior) acc).1 =
        recAssign acc.1 (specs.map (fun s => (s.name, EnvInfo.mk s.signature))) := by
  induction specs with
  | nil => intro acc; rfl
  | cons s rest ih =>
    intro acc
    show (rest.foldl (envStep prior) (envStep prior acc s)).1 = _
    rw [ih (envStep prior acc s)]
    rfl

theorem envPairFold_snd (prior : JsRec EnvInfo) (specs : List NewEnvironmentSpec) :
    ∀ acc : JsRec EnvInfo × List String,
      (specs.foldl (envStep prior) acc).2 =
        acc.2 ++ (specs.filter (fun s => recHas prior s.name)).map
          (fun s => envRedefWarning s.name) := by
  induction specs with
  | nil => intro acc; simp
  | cons s rest ih =>
    intro acc
    show (rest.foldl (envStep prior) (envStep prior acc s)).2 = _
    rw [ih (envStep prior acc s), List.filter_cons]
    by_cases h : recHas prior s.name
    · have hstep : (envStep prior acc s).2 = acc.2 ++ [envRedefWarning s.name] := by
        unfold envStep
        rw [if_pos h]
      rw [hstep]
      simp [h]
    · have hb : recHas prior s.name = false := by
        cases hv : recHas prior s.name
        · rfl
        · exact absurd hv h
      have hstep : (envStep prior acc s).2 = acc.2 := by
        unfold envStep
        rw [if_neg h]
      rw [hstep]
      simp [hb]

theorem envGuardedFold_lookup (specs : List NewEnvironmentSpec) (n : String)
    (hn : n ≠ "") :
    ∀ acc : JsRec EnvInfo,
      recLookup (specs.foldl (fun acc s =>
          if s.name ≠ "" then recSet acc s.name (EnvInfo.mk s.signature) else acc)
        acc) n =
      oalt (recLookupLast (specs.map (fun s => (s.name, EnvInfo.mk s.signature))) n)
        (recLookup acc n) := by
  induction specs with
  | nil => intro acc; rfl
  | cons s rest ih =>
    intro acc
    show recLookup (rest.foldl _
      (if s.name ≠ "" then recSet acc s.name (EnvInfo.mk s.signature) else acc)) n = _
    rw [List.map_cons, recLookupLast_cons, oalt_assoc, ih]
    congr 1
    by_cases hname : s.name ≠ ""
    · rw [if_pos hname, recLookup_recSet]
      by_cases hs : s.name = n
      · rw [if_pos hs, if_pos hs.symm]
        rfl
      · rw [if_neg hs, if_neg (fun h => hs h.symm)]
        rfl
    · rw [if_neg hname]
      have hne : ¬ s.name = n := by
        rw [not_not.mp hname]
        exact fun h => hn h.symm
      rw [if_neg hne]
      rfl

/-- Counterexample to C7 as stated: an environment declared twice in one file
(both specs in one extraction call, nothing previously registered) keeps the
later declaration but emits NO warning — neither the refactored extractor
(which has no warning path at all) nor the legacy handler (whose warning
check consults only the previously registered bucket) reports it. -/
theorem C7_counterexample :
    (extractAndProcessEnvironmentDefinitions []
      [NewEnvironmentSpec.mk "foo" "m", NewEnvironmentSpec.mk "foo" ""]).2 = [] ∧
    recLookup (extractAndProcessEnvironmentDefinitions []
      [NewEnvironmentSpec.mk "foo" "m", NewEnvironmentSpec.mk "foo" ""]).1 "foo" =
      some (EnvInfo.mk "") ∧
    recLookup (extractDefinedEnvironmentsFromSpecs
      [NewEnvironmentSpec.mk "foo" "m", NewEnvironmentSpec.mk "foo" ""]) "foo" =
      some (EnvInfo.mk "") := ⟨rfl, rfl, rfl⟩

/-- Claim C7 (amended): when the same environment name is declared twice in
one file, the document-defined bucket ends up holding the later declaration
in document order (the last binding of the name in the spec list), and
processing continues normally — the extraction is total and never an error;
however no warning is emitted for the same-file duplicate: the legacy
handler's warnings are exactly one per spec whose name was already present
in the document-defined bucket before the call (re-declarations across
extraction calls), and the refactored extractor never warns at all. -/
theorem C7_env_redeclaration (prior : JsRec EnvInfo)
    (specs : List NewEnvironmentSpec) (n : String) (hn : n ≠ "") :
    (∀ v, recLookupLast (specs.map (fun s => (s.name, EnvInfo.mk s.signature))) n =
        some v →
      recLookup (extractAndProcessEnvironmentDefinitions prior specs).1 n = some v ∧
      recLookup (extractDefinedEnvironmentsFromSpecs specs) n = some v) ∧
    ((extractAndProcessEnvironmentDefinitions prior specs).2 =
      (specs.filter (fun s => recHas prior s.name)).map
        (fun s => envRedefWarning s.name)) := by
  constructor
  · intro v hv
    constructor
    · show recLookup (recAssign prior
        (specs.foldl (envStep prior) ([], [])).1) n = some v
      rw [envPairFold_fst prior specs ([], [])]
      rw [recLookup_recAssign]
      have hnodup : recKeysNodup (recAssign ([] : JsRec EnvInfo)
          (specs.map (fun s => (s.name, EnvInfo.mk s.signature)))) :=
        recKeysNodup_recAssign _ _ List.nodup_nil
      rw [recLookupLast_eq_recLookup _ _ hnodup, recLookup_recAssign, hv]
      rfl
    · show recLookup (specs.foldl _ []) n = some v
      rw [envGuardedFold_lookup specs n hn [], hv]
      rfl
  · show (specs.foldl (envStep prior) ([], [])).2 = _
    rw [envPairFold_snd prior specs ([], [])]
    rfl

/-- Witness for amended C7: `foo` declared twice in one file with nothing
previously registered — the later signature wins and the warning list is
empty. -/
theorem C7_env_redeclaration_witness :
    ("foo" ≠ "") ∧
    recLookup (extractAndProcessEnvironmentDefinitions []
      [NewEnvironmentSpec.mk "foo" "m", NewEnvironmentSpec.mk "foo" "o m"]).1 "foo" =
      some (EnvInfo.mk "o m") ∧
    (extractAndProcessEnvironmentDefinitions []
      [NewEnvironmentSpec.mk "foo" "m", NewEnvironmentSpec.mk "foo" "o m"]).2 = [] := by
  have h := C7_env_redeclaration []
    [NewEnvironmentSpec.mk "foo" "m", NewEnvironmentSpec.mk "foo" "o m"]
    "foo" (by decide)
  exact ⟨by decide, (h.1 (EnvInfo.mk "o m") rfl).1, by rw [h.2]; rfl⟩

/-! ## Path resolution and include-reference extraction (C8)

The repository resolves include paths with Node's posix `path` functions,
modelled here: `path.isAbsolute`, `path.resolve` (join then segment
normalization), `path.extname` (extension of the basename), and
`path.normalize`.  The repo never feeds `normalize` a path with a trailing
slash, so trailing-slash preservation is not modelled. -/

def isAbsChars : List Char → Bool
  | '/' :: _ => true
  | _ => false

def posixIsAbsolute (p : String) : Bool := isAbsChars p.toList

/-- Split a character list on `/` (the list analogue of `p.split("/")`). -/
def splitSlash : List Char → List (List Char)
  | [] => [[]]
  | c :: rest =>
    match splitSlash rest with
    | [] => [[]]
    | seg :: segs => if c = '/' then [] :: seg :: segs else (c :: seg) :: segs

def normStack (isAbs : Bool) : List (List Char) → List (List Char) → List (List Char)
  | stack, [] => stack.reverse
  | stack, seg :: rest =>
    if seg = [] ∨ seg = ['.'] then normStack isAbs stack rest
    else if seg = ['.', '.'] then
      match stack with
      | [] => if isAbs then normStack isAbs [] rest
          else normStack isAbs [['.', '.']] rest
      | top :: stk => if top = ['.', '.'] then normStack isAbs (['.', '.'] :: top :: stk) rest
          else normStack isAbs stk rest
    else normStack isAbs (seg :: stack) rest

def joinSlash : List (List Char) → List Char
  | [] => []
  | [seg] => seg
  | seg :: rest => seg ++ '/' :: joinSlash rest

/-- Node posix `path.normalize` on slash-free-tail inputs (the repo never
normalizes a path with a trailing slash, so trailing-slash preservation is
not modelled). -/
def posixNormalize (p : String) : String :=
  if isAbsChars p.toList then
    (if joinSlash (normStack true [] (splitSlash p.toList)) = [] then "/"
     else String.mk ('/' :: joinSlash (normStack true [] (splitSlash p.toList))))
  else
    (if joinSlash (normStack false [] (splitSlash p.toList)) = [] then "."
     else String.mk (joinSlash (normStack false [] (splitSlash p.toList))))

/-- Node posix `path.resolve` for an absolute base directory. -/
def posixResolve (baseDir p : String) : String :=
  if posixIsAbsolute p then posixNormalize p
  else posixNormalize (baseDir ++ "/" ++ p)

def lastDotPos (l : List Char) : Option Nat :=
  ((l.enum.filter (fun q => q.2 = '.')).map (fun q => q.1)).getLast?

/-- Node posix `path.extname`: the suffix of the basename from its last dot,
empty when there is no dot, the only dot is leading, or the basename is
`..`. -/
def posixExtname (p : String) : String :=
  if ((splitSlash p.toList).getLast?).getD [] = ['.', '.'] then ""
  else
    match lastDotPos (((splitSlash p.toList).getLast?).getD []) with
    | none => ""
    | some 0 => ""
    | some i => String.mk ((((splitSlash p.toList).getLast?).getD []).drop i)

/-- `resolvedPath.endsWith(".")`: the last character is a dot. -/
def endsWithDot (p : String) : Bool := p.toList.getLast? = some '.'

/-- The `resolvedPath` local of `resolveTexPathWithExtension`: the raw path
resolved against the including file's directory (kept as-is when already
absolute), before the extension decision. -/
def resolvedBase (baseDir raw : String) : String :=
  if posixIsAbsolute raw then raw else posixResolve baseDir raw

/-- `resolveTexPathWithExtension` from `latex-utils/projectFileUtils.ts`:
append the default extension exactly when the resolved path has no extension
and does not end with a dot; normalize either way. -/
def resolveTexPathWithExtension (baseDir includedPathName : String)
    (defaultExtension : String := ".tex") : String :=
  if posixExtname (resolvedBase baseDir includedPathName) = "" ∧
      endsWithDot (resolvedBase baseDir includedPathName) = false then
    posixNormalize (resolvedBase baseDir includedPathName ++ defaultExtension)
  else posixNormalize (resolvedBase baseDir includedPathName)

def includeCommands : List String := ["input", "include", "subfile"]

/-- Concatenation of the literal-string children of an argument, ignoring all
non-string children. -/
def strConcat (children : List TNode) : String :=
  String.join (children.filterMap (fun n =>
    match n with
    | TNode.str s => some s
    | _ => none))

/-- Per-command-node step of `DefinitionExtractor.extractIncludedFiles`:
skip non-include commands, commands without arguments, and empty raw paths. -/
def refOfCmd (baseDir : String) (name : String) (args : List (List TNode)) :
    Option IncludeRef :=
  if name ∈ includeCommands then
    (args.head?).elim none (fun firstArg =>
      if strConcat firstArg = "" then none
      else some { path := posixNormalize
                    (resolveTexPathWithExtension baseDir (strConcat firstArg))
                  command := name
                  rawPath := strConcat firstArg })
  else none

mutual

/-- `DefinitionExtractor.extractIncludedFiles`: a deep visit over command
nodes, collecting include references in visit order. -/
def includesList (baseDir : String) : List TNode → List IncludeRef
  | [] => []
  | n :: rest => includesNode baseDir n ++ includesList baseDir rest

def includesNode (baseDir : String) : TNode → List IncludeRef
  | TNode.cmd name args =>
    (match refOfCmd baseDir name args with
     | some r => [r]
     | none => []) ++ includesArgs baseDir args
  | TNode.grp children => includesList baseDir children
  | TNode.env _ body => includesList baseDir body
  | _ => []

def includesArgs (baseDir : String) : List (List TNode) → List IncludeRef
  | [] => []
  | a :: rest => includesList baseDir a ++ includesArgs baseDir rest

end

mutual

/-- Specification-side collection of every command occurrence (name and
attached arguments) in visit order. -/
def cmdOccsList : List TNode → List (String × List (List TNode))
  | [] => []
  | n :: rest => cmdOccsNode n ++ cmdOccsList rest

def cmdOccsNode : TNode → List (String × List (List TNode))
  | TNode.cmd name args => (name, args) :: cmdOccsArgs args
  | TNode.grp children => cmdOccsList children
  | TNode.env _ body => cmdOccsList body
  | _ => []

def cmdOccsArgs : List (List TNode) → List (String × List (List TNode))
  | [] => []
  | a :: rest => cmdOccsList a ++ cmdOccsArgs rest

end

mutual

theorem includesList_eq (baseDir : String) :
    (l : List TNode) → includesList baseDir l =
      (cmdOccsList l).filterMap (fun c => refOfCmd baseDir c.1 c.2)
  | [] => rfl
  | n :: rest => by
    show includesNode baseDir n ++ includesList baseDir rest = _
    rw [show cmdOccsList (n :: rest) = cmdOccsNode n ++ cmdOccsList rest from rfl,
      List.filterMap_append, includesNode_eq baseDir n, includesList_eq baseDir rest]

theorem includesNode_eq (baseDir : String) :
    (n : TNode) → includesNode baseDir n =
      (cmdOccsNode n).filterMap (fun c => refOfCmd baseDir c.1 c.2)
  | TNode.cmd name args => by
    show (match refOfCmd baseDir name args with
          | some r => [r]
          | none => []) ++ includesArgs baseDir args = _
    rw [show cmdOccsNode (TNode.cmd name args) = (name, args) :: cmdOccsArgs args
        from rfl, List.filterMap_cons, includesArgs_eq baseDir args]
    cases h : refOfCmd baseDir name args with
    | none => rfl
    | some r => rfl
  | TNode.grp children => includesList_eq baseDir children
  | TNode.env _ body => includesList_eq baseDir body
  | TNode.ws => rfl
  | TNode.str _ => rfl
  | TNode.comm _ => rfl

theorem includesArgs_eq (baseDir : String) :
    (as : List (List TNode)) → includesArgs baseDir as =
      (cmdOccsArgs as).filterMap (fun c => refOfCmd baseDir c.1 c.2)
  | [] => rfl
  | a :: rest => by
    show includesList baseDir a ++ includesArgs baseDir rest = _
    rw [show cmdOccsArgs (a :: rest) = cmdOccsList a ++ cmdOccsArgs rest from rfl,
      List.filterMap_append, includesList_eq baseDir a, includesArgs_eq baseDir rest]

end

theorem refOfCmd_some_inv (baseDir name : String) (args : List (List TNode))
    (ref : IncludeRef) (h : refOfCmd baseDir name args = some ref) :
    name ∈ includeCommands ∧
    ∃ firstArg rest, args = firstArg :: rest ∧ strConcat firstArg ≠ "" ∧
      ref = { path := posixNormalize
                (resolveTexPathWithExtension baseDir (strConcat firstArg))
              command := name
              rawPath := strConcat firstArg } := by
  unfold refOfCmd at h
  by_cases hname : name ∈ includeCommands
  · rw [if_pos hname] at h
    cases args with
    | nil => simp at h
    | cons firstArg rest =>
      simp only [List.head?_cons, Option.elim_some] at h
      by_cases hraw : strConcat firstArg = ""
      · rw [if_pos hraw] at h
        exact absurd h (by simp)
      · rw [if_neg hraw] at h
        exact ⟨hname, firstArg, rest, rfl, hraw, (Option.some.inj h).symm⟩
  · rw [if_neg hname] at h
    exact absurd h (by simp)

/-- Claim C8: every include reference extracted from a processed tree comes
from an include-command occurrence; its raw path is the concatenation of the
string children of the command's first argument (non-string children
ignored); its resolved path is the raw path resolved against the including
file's directory with the default `.tex` extension appended if and only if
the resolved path has no extension and does not end with a dot. -/
theorem C8_include_resolution (t : List TNode) (baseDir : String) :
    includesList baseDir t =
      (cmdOccsList t).filterMap (fun c => refOfCmd baseDir c.1 c.2) ∧
    ∀ ref ∈ includesList baseDir t,
      ref.rawPath ≠ "" ∧
      ref.command ∈ includeCommands ∧
      (∃ c ∈ cmdOccsList t, c.1 = ref.command ∧
        ∃ firstArg rest, c.2 = firstArg :: rest ∧ ref.rawPath = strConcat firstArg) ∧
      ref.path = posixNormalize (resolveTexPathWithExtension baseDir ref.rawPath) ∧
      (posixExtname (resolvedBase baseDir ref.rawPath) = "" ∧
          endsWithDot (resolvedBase baseDir ref.rawPath) = false →
        resolveTexPathWithExtension baseDir ref.rawPath =
          posixNormalize (resolvedBase baseDir ref.rawPath ++ ".tex")) ∧
      (¬ (posixExtname (resolvedBase baseDir ref.rawPath) = "" ∧
          endsWithDot (resolvedBase baseDir ref.rawPath) = false) →
        resolveTexPathWithExtension baseDir ref.rawPath =
          posixNormalize (resolvedBase baseDir ref.rawPath)) := by
  refine ⟨includesList_eq baseDir t, ?_⟩
  intro ref href
  rw [includesList_eq baseDir t] at href
  rcases List.mem_filterMap.mp href with ⟨c, hc, heq⟩
  rcases refOfCmd_some_inv baseDir c.1 c.2 ref heq with
    ⟨hname, firstArg, rest, hargs, hraw, hrec⟩
  refine ⟨?_, ?_, ?_, ?_, ?_, ?_⟩
  · rw [hrec]
    exact hraw
  · rw [hrec]
    exact hname
  · exact ⟨c, hc, by rw [hrec], firstArg, rest, hargs, by rw [hrec]⟩
  · rw [hrec]
  · intro hcond
    unfold resolveTexPathWithExtension
    rw [if_pos hcond]
  · intro hcond
    unfold resolveTexPathWithExtension
    rw [if_neg hcond]

/-- A file containing `\input{chap<non-string child>ter1}`. -/
def sampleIncludeTree : List TNode :=
  [TNode.cmd "input" [[TNode.str "chap", TNode.cmd "x" [], TNode.str "ter1"]]]

def sampleIncludeRef : IncludeRef :=
  { path := "/proj/chapter1.tex", command := "input", rawPath := "chapter1" }

/-- Witness for C8: the raw path concatenates only the string children, the
reference resolves under the including directory, and `.tex` is appended. -/
theorem C8_include_resolution_witness :
    sampleIncludeRef ∈ includesList "/proj" sampleIncludeTree ∧
    sampleIncludeRef.rawPath ≠ "" ∧
    sampleIncludeRef.path =
      posixNormalize (resolveTexPathWithExtension "/proj" sampleIncludeRef.rawPath) ∧
    sampleIncludeRef.path = "/proj/chapter1.tex" := by
  have hmem : sampleIncludeRef ∈ includesList "/proj" sampleIncludeTree := by
    rw [show includesList "/proj" sampleIncludeTree = [sampleIncludeRef] from rfl]
    exact List.mem_singleton.mpr rfl
  have h := (C8_include_resolution sampleIncludeTree "/proj").2 sampleIncludeRef hmem
  exact ⟨hmem, h.1, h.2.2.2.1, rfl⟩

/-! ## Root-file determination (C6)

`ProjectProcessor.determineRootFile`, directory branch: first check a small
ordered list of conventional root file names; if none exists, scan the
recursively found TeX files (in traversal order) for root-indicator content;
one candidate is used, several produce a warning and the first is used, zero
is a global error.  File reads that fail are skipped (`content = none`). -/

structure TexFileEntry where
  path : String
  content : Option String
deriving Repr

def commonRootFileNames : List String :=
  ["main.tex", "root.tex", "master.tex", "document.tex", "thesis.tex"]

/-- Root candidates: TeX files whose content was readable and matches the
root-indicator heuristic (`isRootFileContent`), in traversal order,
normalized. -/
def rootCandidates (isRoot : String → Bool) (texFiles : List TexFileEntry) :
    List String :=
  texFiles.filterMap (fun f => f.content.bind (fun c =>
    if isRoot c then some (posixNormalize f.path) else none))

/-- Outcome of the directory branch of `determineRootFile`:
root path (or none), the global error list, and the warnings logged. -/
def determineRootFileDir (fileExists : String → Bool) (isRoot : String → Bool)
    (dir : String) (texFiles : List TexFileEntry) (globalErrors : List String) :
    Option String × List String × List String :=
  match commonRootFileNames.find?
      (fun fn => fileExists (posixNormalize (dir ++ "/" ++ fn))) with
  | some fn => (some (posixNormalize (dir ++ "/" ++ fn)), globalErrors, [])
  | none =>
    match rootCandidates isRoot texFiles with
    | [] => (none, globalErrors ++
        ["no recognizable root TeX file found in directory " ++ dir], [])
    | [c] => (some c, globalErrors, [])
    | c :: _ :: _ => (some c, globalErrors,
        ["multiple root-file candidates found, using the first: " ++ c])

/-- Claim C6: with none of the conventional root file names present, exactly
one root-indicator match is selected as root with no new global error; zero
matches yield a null root and a non-empty global error list; two or more
matches produce a warning and deterministically select the first candidate in
traversal order (the result is a pure function of the candidate list, hence
identical on repeated runs). -/
theorem C6_root_determination (fileExists : String → Bool) (isRoot : String → Bool)
    (dir : String) (texFiles : List TexFileEntry) (globalErrors : List String)
    (hnone : ∀ fn ∈ commonRootFileNames,
      fileExists (posixNormalize (dir ++ "/" ++ fn)) = false) :
    (∀ c, rootCandidates isRoot texFiles = [c] →
      (determineRootFileDir fileExists isRoot dir texFiles globalErrors).1 = some c ∧
      (determineRootFileDir fileExists isRoot dir texFiles globalErrors).2.1 =
        globalErrors) ∧
    (rootCandidates isRoot texFiles = [] →
      (determineRootFileDir fileExists isRoot dir texFiles globalErrors).1 = none ∧
      (determineRootFileDir fileExists isRoot dir texFiles globalErrors).2.1 ≠ []) ∧
    (∀ c c2 cs, rootCandidates isRoot texFiles = c :: c2 :: cs →
      (determineRootFileDir fileExists isRoot dir texFiles globalErrors).1 = some c ∧
      (determineRootFileDir fileExists isRoot dir texFiles globalErrors).2.2 ≠ []) ∧
    (∀ texFiles2, rootCandidates isRoot texFiles = rootCandidates isRoot texFiles2 →
      (determineRootFileDir fileExists isRoot dir texFiles globalErrors).1 =
      (determineRootFileDir fileExists isRoot dir texFiles2 globalErrors).1) := by
  have hfind : commonRootFileNames.find?
      (fun fn => fileExists (posixNormalize (dir ++ "/" ++ fn))) = none := by
    rw [List.find?_eq_none]
    intro fn hfn hc
    rw [hnone fn hfn] at hc
    exact Bool.false_ne_true hc
  refine ⟨?_, ?_, ?_, ?_⟩
  · intro c hc
    unfold determineRootFileDir
    rw [hfind, hc]
    exact ⟨rfl, rfl⟩
  · intro hc
    unfold determineRootFileDir
    rw [hfind, hc]
    refine ⟨rfl, ?_⟩
    simp
  · intro c c2 cs hc
    unfold determineRootFileDir
    rw [hfind, hc]
    refine ⟨rfl, ?_⟩
    simp
  · intro texFiles2 hc
    unfold determineRootFileDir
    rw [hfind, hc]

/-- Witness for C6: a directory with no conventional root name and exactly
one file whose content matches the root indicator. -/
theorem C6_root_determination_witness :
    ((∀ fn ∈ commonRootFileNames,
      (fun _ => false : String → Bool) (posixNormalize ("/p" ++ "/" ++ fn)) = false) ∧
    rootCandidates (fun c => c = "rootdoc")
      [TexFileEntry.mk "/p/a.tex" (some "x"),
       TexFileEntry.mk "/p/b.tex" (some "rootdoc")] = ["/p/b.tex"]) ∧
    (determineRootFileDir (fun _ => false) (fun c => c = "rootdoc") "/p"
      [TexFileEntry.mk "/p/a.tex" (some "x"),
       TexFileEntry.mk "/p/b.tex" (some "rootdoc")] []).1 = some "/p/b.tex" :=
  ⟨⟨fun _ _ => rfl, rfl⟩,
   ((C6_root_determination (fun _ => false) (fun c => c = "rootdoc") "/p"
      [TexFileEntry.mk "/p/a.tex" (some "x"),
       TexFileEntry.mk "/p/b.tex" (some "rootdoc")] []
      (fun _ _ => rfl)).1 "/p/b.tex" rfl).1⟩

/-! ## Project traversal (C4)

`ProjectProcessor.parse`, traversal loop: a FIFO queue seeded with the root,
a visited set of normalized paths, one `parseFileContent` call per newly
visited readable path, include targets enqueued when unvisited and existing,
missing targets recorded as global errors and marked visited.  The
filesystem is a finite table from canonical paths to the include lists the
per-file pass produces; `norm` is the (arbitrary) `normalizePath` function. -/

structure TravFS where
  files : List (String × List String)
  readOk : String → Bool

def fsHas (fs : TravFS) (p : String) : Bool :=
  fs.files.any (fun f => f.1 == p)

def fsIncludes (fs : TravFS) (p : String) : List String :=
  ((fs.files.find? (fun f => f.1 == p)).map (fun f => f.2)).getD []

structure TravState where
  queue : List String
  visited : List String
  calls : List String
  errors : List String
deriving Repr

/-- Lines 144-158 of `ProjectProcessor.parse`: handle one include reference
of the just-processed file. -/
def includeStep (norm : String → String) (fs : TravFS) (acc : TravState)
    (tgt : String) : TravState :=
  if norm tgt ∈ acc.visited then acc
  else if fsHas fs (norm tgt) then { acc with queue := acc.queue ++ [norm tgt] }
  else { acc with visited := norm tgt :: acc.visited,
                  errors := acc.errors ++ ["referenced file not found: " ++ norm tgt] }

/-- One iteration of the `while` loop: dequeue, skip if already visited,
otherwise mark visited, read (a failed read records a file error and moves
on), run the per-file pass (recorded in `calls`), and process its include
references. -/
def travStep (norm : String → String) (fs : TravFS) (s : TravState) : TravState :=
  match s.queue with
  | [] => s
  | p :: rest =>
    if norm p ∈ s.visited then { s with queue := rest }
    else if fs.readOk (norm p) then
      (fsIncludes fs (norm p)).foldl (includeStep norm fs)
        { queue := rest, visited := norm p :: s.visited,
          calls := s.calls ++ [norm p], errors := s.errors }
    else
      { queue := rest, visited := norm p :: s.visited,
        calls := s.calls, errors := s.errors }

def travRun (norm : String → String) (fs : TravFS) : Nat → TravState → TravState
  | 0, s => s
  | Nat.succ n, s =>
    match s.queue with
    | [] => s
    | _ :: _ => travRun norm fs n (travStep norm fs s)

def initTravState (root : String) : TravState :=
  { queue := [root], visited := [], calls := [], errors := [] }

/-- Every path that can ever sit in the queue: the root and the table keys. -/
def travU (fs : TravFS) (root : String) : List String :=
  root :: fs.files.map (fun f => f.1)

/-- Bound on the number of include references any one file contributes. -/
def travB (fs : TravFS) : Nat :=
  (fs.files.map (fun f => f.2.length)).foldl max 0

def travMeasure (norm : String → String) (fs : TravFS) (root : String)
    (s : TravState) : Nat :=
  s.queue.length + (travB fs + 1) *
    (((travU fs root).map norm).toFinset \ s.visited.toFinset).card

theorem fsHas_mem (fs : TravFS) (q : String) (h : fsHas fs q = true) :
    q ∈ fs.files.map (fun f => f.1) := by
  rcases List.any_eq_true.mp h with ⟨f, hf, hbeq⟩
  exact List.mem_map.mpr ⟨f, hf, by simpa using hbeq⟩

theorem fsIncludes_length_le (fs : TravFS) (q : String) :
    (fsIncludes fs q).length ≤ travB fs := by
  unfold fsIncludes travB
  cases hf : fs.files.find? (fun f => f.1 == q) with
  | none => simp
  | some f =>
    have hmem := List.mem_of_find?_eq_some hf
    have hlen : f.2.length ∈ fs.files.map (fun f => f.2.length) :=
      List.mem_map.mpr ⟨f, hmem, rfl⟩
    simpa using le_foldlMax_mem _ 0 _ hlen

theorem includeFold_props (norm : String → String) (fs : TravFS)
    (L : List String) :
    ∀ acc : TravState,
      (L.foldl (includeStep norm fs) acc).queue.length ≤
        acc.queue.length + L.length ∧
      (∀ v ∈ acc.visited, v ∈ (L.foldl (includeStep norm fs) acc).visited) ∧
      (L.foldl (includeStep norm fs) acc).calls = acc.calls ∧
      (∀ q ∈ (L.foldl (includeStep norm fs) acc).queue,
        q ∈ acc.queue ∨ q ∈ fs.files.map (fun f => f.1)) := by
  induction L with
  | nil =>
    intro acc
    exact ⟨Nat.le_add_right _ _, fun v hv => hv, rfl, fun q hq => Or.inl hq⟩
  | cons t rest ih =>
    intro acc
    rw [List.foldl_cons]
    obtain ⟨ih1, ih2, ih3, ih4⟩ := ih (includeStep norm fs acc t)
    by_cases hv : norm t ∈ acc.visited
    · have hstep : includeStep norm fs acc t = acc := by
        unfold includeStep
        rw [if_pos hv]
      rw [hstep] at ih1 ih2 ih3 ih4 ⊢
      exact ⟨Nat.le_trans ih1 (by simp), ih2, ih3, ih4⟩
    · by_cases hh : fsHas fs (norm t)
      · have hstep : includeStep norm fs acc t =
            { acc with queue := acc.queue ++ [norm t] } := by
          unfold includeStep
          rw [if_neg hv, if_pos hh]
        rw [hstep] at ih1 ih2 ih3 ih4 ⊢
        refine ⟨?_, ih2, ih3, ?_⟩
        · simp only [List.length_cons]
          simp at ih1
          omega
        · intro q hq
          rcases ih4 q hq with hq' | hq'
          · rcases List.mem_append.mp hq' with h1 | h1
            · exact Or.inl h1
            · rcases List.mem_singleton.mp h1 with rfl
              exact Or.inr (fsHas_mem fs _ hh)
          · exact Or.inr hq'
      · have hstep : includeStep norm fs acc t =
            { queue := acc.queue, visited := norm t :: acc.visited,
              calls := acc.calls,
              errors := acc.errors ++ ["referenced file not found: " ++ norm t] } := by
          unfold includeStep
          rw [if_neg hv, if_neg hh]
        rw [hstep] at ih1 ih2 ih3 ih4 ⊢
        refine ⟨Nat.le_trans ih1 (by simp), ?_, ih3, fun q hq => ih4 q hq⟩
        intro v hv'
        exact ih2 v (List.mem_cons.mpr (Or.inr hv'))

/-- The state after marking a dequeued unvisited readable path and invoking
the per-file pass on it, before its include references are processed. -/
def procState (norm : String → String) (s : TravState) (p : String)
    (rest : List String) : TravState :=
  TravState.mk rest (norm p :: s.visited) (s.calls ++ [norm p]) s.errors

/-- The state after skipping an unreadable path (its read error is recorded
per file, not globally). -/
def skipState (norm : String → String) (s : TravState) (p : String)
    (rest : List String) : TravState :=
  TravState.mk rest (norm p :: s.visited) s.calls s.errors

theorem travStep_cons (norm : String → String) (fs : TravFS) (s : TravState)
    (p : String) (rest : List String) (hq : s.queue = p :: rest) :
    travStep norm fs s =
      if norm p ∈ s.visited then { s with queue := rest }
      else if fs.readOk (norm p) then
        (fsIncludes fs (norm p)).foldl (includeStep norm fs)
          (procState norm s p rest)
      else skipState norm s p rest := by
  unfold travStep
  rw [hq]
  rfl

theorem travStep_visited_noop (norm : String → String) (fs : TravFS)
    (s : TravState) (p : String) (rest : List String)
    (hq : s.queue = p :: rest) (hv : norm p ∈ s.visited) :
    travStep norm fs s = { s with queue := rest } := by
  rw [travStep_cons norm fs s p rest hq, if_pos hv]

theorem travStep_measure (norm : String → String) (fs : TravFS) (root : String)
    (s : TravState) (p : String) (rest : List String)
    (hq : s.queue = p :: rest) (hU : ∀ q ∈ s.queue, q ∈ travU fs root) :
    travMeasure norm fs root (travStep norm fs s) < travMeasure norm fs root s := by
  have hpU : p ∈ travU fs root := hU p (by rw [hq]; exact List.mem_cons_self p rest)
  have hnpS : norm p ∈ ((travU fs root).map norm).toFinset := by
    rw [List.mem_toFinset]
    exact List.mem_map.mpr ⟨p, hpU, rfl⟩
  rw [travStep_cons norm fs s p rest hq]
  by_cases hv : norm p ∈ s.visited
  · rw [if_pos hv]
    unfold travMeasure
    rw [hq]
    simp only [List.length_cons]
    omega
  · have hvnotin : norm p ∉ s.visited.toFinset := by
      rw [List.mem_toFinset]
      exact hv
    have hmemdiff : norm p ∈ ((travU fs root).map norm).toFinset \ s.visited.toFinset :=
      Finset.mem_sdiff.mpr ⟨hnpS, hvnotin⟩
    have hcard : (((travU fs root).map norm).toFinset \
        (norm p :: s.visited).toFinset).card + 1 =
        (((travU fs root).map norm).toFinset \ s.visited.toFinset).card := by
      rw [List.toFinset_cons, Finset.sdiff_insert,
        Finset.card_erase_of_mem hmemdiff]
      have hpos : 0 < (((travU fs root).map norm).toFinset \
          s.visited.toFinset).card := Finset.card_pos.mpr ⟨norm p, hmemdiff⟩
      omega
    rw [if_neg hv]
    by_cases hr : fs.readOk (norm p)
    · rw [if_pos hr]
      obtain ⟨f1, f2, f3, f4⟩ := includeFold_props norm fs (fsIncludes fs (norm p))
        (procState norm s p rest)
      have hsub : (norm p :: s.visited).toFinset ⊆
          ((fsIncludes fs (norm p)).foldl (includeStep norm fs)
            (procState norm s p rest)).visited.toFinset := by
        intro x hx
        rw [List.mem_toFinset] at hx ⊢
        exact f2 x hx
      have hcard2 : (((travU fs root).map norm).toFinset \
          ((fsIncludes fs (norm p)).foldl (includeStep norm fs)
            (procState norm s p rest)).visited.toFinset).card ≤
          (((travU fs root).map norm).toFinset \
            (norm p :: s.visited).toFinset).card :=
        Finset.card_le_card
          (Finset.sdiff_subset_sdiff (Finset.Subset.refl _) hsub)
      have hlen : ((fsIncludes fs (norm p)).foldl (includeStep norm fs)
          (procState norm s p rest)).queue.length ≤
          rest.length + travB fs := by
        have hb := fsIncludes_length_le fs (norm p)
        have hql : (procState norm s p rest).queue.length = rest.length := rfl
        rw [hql] at f1
        omega
      unfold travMeasure
      rw [hq]
      simp only [List.length_cons]
      have hmul : (travB fs + 1) * (((travU fs root).map norm).toFinset \
          ((fsIncludes fs (norm p)).foldl (includeStep norm fs)
            (procState norm s p rest)).visited.toFinset).card +
          (travB fs + 1) ≤
          (travB fs + 1) * (((travU fs root).map norm).toFinset \
            s.visited.toFinset).card := by
        have hle : (((travU fs root).map norm).toFinset \
            ((fsIncludes fs (norm p)).foldl (includeStep norm fs)
              (procState norm s p rest)).visited.toFinset).card + 1 ≤
            (((travU fs root).map norm).toFinset \ s.visited.toFinset).card := by
          omega
        calc (travB fs + 1) * (((travU fs root).map norm).toFinset \
              ((fsIncludes fs (norm p)).foldl (includeStep norm fs)
                (procState norm s p rest)).visited.toFinset).card + (travB fs + 1) =
            (travB fs + 1) * ((((travU fs root).map norm).toFinset \
              ((fsIncludes fs (norm p)).foldl (includeStep norm fs)
                (procState norm s p rest)).visited.toFinset).card + 1) := by
              ring
          _ ≤ (travB fs + 1) * (((travU fs root).map norm).toFinset \
              s.visited.toFinset).card := Nat.mul_le_mul_left _ hle
      omega
    · rw [if_neg hr]
      unfold travMeasure
      rw [hq]
      simp only [List.length_cons]
      have hvis : (skipState norm s p rest).visited = norm p :: s.visited := rfl
      have hqueue : (skipState norm s p rest).queue = rest := rfl
      rw [hvis, hqueue]
      have hmul : (travB fs + 1) * (((travU fs root).map norm).toFinset \
          (norm p :: s.visited).toFinset).card + (travB fs + 1) =
          (travB fs + 1) * (((travU fs root).map norm).toFinset \
            s.visited.toFinset).card := by
        calc (travB fs + 1) * (((travU fs root).map norm).toFinset \
              (norm p :: s.visited).toFinset).card + (travB fs + 1) =
            (travB fs + 1) * ((((travU fs root).map norm).toFinset \
              (norm p :: s.visited).toFinset).card + 1) := by ring
          _ = (travB fs + 1) * (((travU fs root).map norm).toFinset \
              s.visited.toFinset).card := by rw [hcard]
      omega

/-- Loop invariant: queued paths come from the root or the file table, the
per-file pass was called at most once per path, and calls are visited. -/
def travInv (_norm : String → String) (fs : TravFS) (root : String)
    (s : TravState) : Prop :=
  (∀ q ∈ s.queue, q ∈ travU fs root) ∧ s.calls.Nodup ∧
  (∀ c ∈ s.calls, c ∈ s.visited)

theorem travStep_inv (norm : String → String) (fs : TravFS) (root : String)
    (s : TravState) (hinv : travInv norm fs root s) :
    travInv norm fs root (travStep norm fs s) := by
  obtain ⟨hU, hnd, hcv⟩ := hinv
  cases hqm : s.queue with
  | nil =>
    have heq : travStep norm fs s = s := by
      unfold travStep
      rw [hqm]
    rw [heq]
    exact ⟨hU, hnd, hcv⟩
  | cons p rest =>
    rw [travStep_cons norm fs s p rest hqm]
    by_cases hv : norm p ∈ s.visited
    · rw [if_pos hv]
      refine ⟨?_, hnd, ?_⟩
      · intro q hq
        exact hU q (by rw [hqm]; exact List.mem_cons.mpr (Or.inr hq))
      · intro c hc
        exact hcv c hc
    · rw [if_neg hv]
      by_cases hr : fs.readOk (norm p)
      · rw [if_pos hr]
        obtain ⟨f1, f2, f3, f4⟩ := includeFold_props norm fs
          (fsIncludes fs (norm p)) (procState norm s p rest)
        refine ⟨?_, ?_, ?_⟩
        · intro q hq
          rcases f4 q hq with hq' | hq'
          · exact hU q (by rw [hqm]; exact List.mem_cons.mpr (Or.inr hq'))
          · exact List.mem_cons.mpr (Or.inr hq')
        · rw [f3]
          show (s.calls ++ [norm p]).Nodup
          refine List.Nodup.append hnd (List.nodup_singleton _) ?_
          intro x hx hx'
          rcases List.mem_singleton.mp hx' with rfl
          exact hv (hcv _ hx)
        · intro c hc
          rw [f3] at hc
          have hc' : c ∈ s.calls ++ [norm p] := hc
          rcases List.mem_append.mp hc' with h1 | h1
          · exact f2 c (List.mem_cons.mpr (Or.inr (hcv c h1)))
          · rcases List.mem_singleton.mp h1 with rfl
            exact f2 _ (List.mem_cons.mpr (Or.inl rfl))
      · rw [if_neg hr]
        refine ⟨?_, hnd, ?_⟩
        · intro q hq
          exact hU q (by rw [hqm]; exact List.mem_cons.mpr (Or.inr hq))
        · intro c hc
          exact List.mem_cons.mpr (Or.inr (hcv c hc))

theorem travRun_reaches_empty (norm : String → String) (fs : TravFS)
    (root : String) :
    ∀ k s, travMeasure norm fs root s ≤ k → travInv norm fs root s →
      ∃ n, (travRun norm fs n s).queue = [] ∧
        travInv norm fs root (travRun norm fs n s) := by
  intro k
  induction k with
  | zero =>
    intro s hm hinv
    cases hqm : s.queue with
    | nil => exact ⟨0, hqm, hinv⟩
    | cons p rest =>
      exfalso
      unfold travMeasure at hm
      rw [hqm] at hm
      simp [List.length_cons] at hm
  | succ k ih =>
    intro s hm hinv
    cases hqm : s.queue with
    | nil => exact ⟨0, hqm, hinv⟩
    | cons p rest =>
      have hstep := travStep_measure norm fs root s p rest hqm hinv.1
      have hinv' := travStep_inv norm fs root s hinv
      obtain ⟨n, hn1, hn2⟩ := ih (travStep norm fs s) (by omega) hinv'
      have heq : travRun norm fs (n + 1) s =
          travRun norm fs n (travStep norm fs s) := by
        conv_lhs => rw [travRun]
        rw [hqm]
      refine ⟨n + 1, ?_, ?_⟩
      · rw [heq]
        exact hn1
      · rw [heq]
        exact hn2

/-- Claim C4: for every include graph (self-loops, cycles and diamonds
included), the traversal loop terminates with an empty queue; the per-file
pass is invoked at most once per canonical path (the `calls` log has no
duplicate); and dequeuing an already-visited canonical path is a no-op apart
from consuming the queue entry. -/
theorem C4_traversal_terminates (norm : String → String) (fs : TravFS)
    (root : String) :
    (∃ n, (travRun norm fs n (initTravState root)).queue = [] ∧
      (travRun norm fs n (initTravState root)).calls.Nodup) ∧
    (∀ s : TravState, ∀ p rest, s.queue = p :: rest → norm p ∈ s.visited →
      travStep norm fs s = { s with queue := rest }) := by
  constructor
  · have hinv : travInv norm fs root (initTravState root) := by
      refine ⟨?_, List.nodup_nil, ?_⟩
      · intro q hq
        rcases List.mem_singleton.mp hq with rfl
        exact List.mem_cons.mpr (Or.inl rfl)
      · intro c hc
        exact absurd hc (List.not_mem_nil c)
    obtain ⟨n, hq, hinv'⟩ := travRun_reaches_empty norm fs root
      (travMeasure norm fs root (initTravState root)) (initTravState root)
      (Nat.le_refl _) hinv
    exact ⟨n, hq, hinv'.2.1⟩
  · intro s p rest hq hv
    exact travStep_visited_noop norm fs s p rest hq hv

/-- Witness for C4: a self-including file `a` with a second queued reference
to it; the second dequeue is a no-op and the run ends with an empty queue. -/
theorem C4_traversal_terminates_witness :
    ((TravState.mk ["a"] ["a"] ["a"] []).queue = "a" :: [] ∧
      ("a" : String) ∈ (TravState.mk ["a"] ["a"] ["a"] []).visited) ∧
    travStep (fun x => x) (TravFS.mk [("a", ["a"])] (fun _ => true))
      (TravState.mk ["a"] ["a"] ["a"] []) =
      { TravState.mk ["a"] ["a"] ["a"] [] with queue := [] } ∧
    (∃ n, (travRun (fun x => x) (TravFS.mk [("a", ["a"])] (fun _ => true)) n
        (initTravState "a")).queue = [] ∧
      (travRun (fun x => x) (TravFS.mk [("a", ["a"])] (fun _ => true)) n
        (initTravState "a")).calls.Nodup) :=
  ⟨⟨rfl, List.mem_singleton.mpr rfl⟩,
   (C4_traversal_terminates (fun x => x) (TravFS.mk [("a", ["a"])]
      (fun _ => true)) "a").2 (TravState.mk ["a"] ["a"] ["a"] []) "a" [] rfl
     (List.mem_singleton.mpr rfl),
   (C4_traversal_terminates (fun x => x) (TravFS.mk [("a", ["a"])]
      (fun _ => true)) "a").1⟩

end LatexAstGen
